import Mathlib

/-!
Verification of the 3x3 image convolution (`src/main.cpp`)

A shallow embedding of the convolution engine (`processSequential`,
`processOpenMP`), the kernel table and the per-file body of the benchmark
driver, followed by the properties proved about them.

Modelling conventions.
* A C++ `int` is a mathematical integer reduced by `wrap32` after every
  addition, subtraction and multiplication (two's-complement wrap-around).
* `sum /= divisor` is a partial operation: it is undefined for a zero divisor
  and for `INT_MIN / -1`; both are modelled as failure (`none`).
* `pixels[i]` with an index outside the vector, and `resize` with a negative
  `int` argument (converted to a huge `size_t`), are failures (`none`).
* A pixel is an `unsigned char`, modelled as `Fin 256`.
* The parallel pass takes its work split as an argument: the list of ranges of
  interior pixels in the order in which their stores take effect.

The driver `main` is modelled from line 113 on, over an explicit filesystem
state and with its collaborators (decoder, clock, OpenMP work split) as
parameters.

The theorems about a pass assume `FitsInt W H`: the sizes `W`, `H` and the
pixel count `W * H` are non-negative values of type `int`, so that the
expressions `w * h` and `y * w + x` of the source denote what they say.
-/

namespace Convolution

/-! ## Machine integers -/

/-- Least value of a 32-bit `int`. -/
def INT_MIN : Int := -2147483648

/-- Greatest value of a 32-bit `int`. -/
def INT_MAX : Int := 2147483647

/-- Two's-complement reduction of an integer to the range of a 32-bit `int`. -/
def wrap32 (z : Int) : Int := (z + 2147483648) % 4294967296 - 2147483648

/-- The `int` addition `a + b`. -/
def iadd (a b : Int) : Int := wrap32 (a + b)

/-- The `int` subtraction `a - b`. -/
def isub (a b : Int) : Int := wrap32 (a - b)

/-- The `int` multiplication `a * b`. -/
def imul (a b : Int) : Int := wrap32 (a * b)

/-- The `int` division `a / b` (truncating); undefined for `b = 0` and for
`INT_MIN / -1`. -/
def idiv (a b : Int) : Option Int :=
  if b = 0 then none
  else if a = INT_MIN ∧ b = -1 then none
  else some (Int.tdiv a b)

/-! ## Data model -/

/-- An `unsigned char`. -/
abbrev Pixel := Fin 256

/-- The `Image` struct: three `int` fields and a `vector<unsigned char>`. -/
structure Image where
  width : Int
  height : Int
  channels : Int
  pixels : List Pixel
deriving DecidableEq

/-- A `const int kernel[3][3]`. -/
abbrev Kernel := Fin 3 → Fin 3 → Int

/-- The table `KERNEL_BLUR`. -/
def KERNEL_BLUR : Kernel := ![![1, 2, 1], ![2, 4, 2], ![1, 2, 1]]

/-- The table `KERNEL_SHARPEN`. -/
def KERNEL_SHARPEN : Kernel := ![![-1, -1, -1], ![-1, 9, -1], ![-1, -1, -1]]

/-! ## Vector operations -/

/-- The call `pixels.resize(n)` with an `int` argument: the first `n` elements
are kept, missing ones are value-initialised to 0; a negative `n` converts to
a `size_t` above `max_size()` and the call throws. -/
def resizePixels (buf : List Pixel) (n : Int) : Option (List Pixel) :=
  if n < 0 then none
  else some (buf.take n.toNat ++ List.replicate (n.toNat - buf.length) 0)

/-- The read `pixels[i]` with an `int` index. -/
def readPixel (buf : List Pixel) (i : Int) : Option Pixel :=
  if i < 0 then none else buf[i.toNat]?

/-- The write `pixels[i] = v` with an `int` index. -/
def writePixel (buf : List Pixel) (i : Int) (v : Pixel) : Option (List Pixel) :=
  if i < 0 then none
  else if i.toNat < buf.length then some (buf.set i.toNat v)
  else none

/-! ## The per-pixel body -/

/-- The row-major index expression `y * w + x`, in `int` arithmetic. -/
def pixelIndex (w x y : Int) : Int := iadd (imul y w) x

/-- The values taken by `ky` and by `kx`: `-1, 0, 1`. -/
def kernelOffsets : List Int := [-1, 0, 1]

/-- The kernel entry `kernel[ky + 1][kx + 1]`. -/
def kernelAt (kernel : Kernel) (ky kx : Int) : Int :=
  kernel (Fin.ofNat (iadd ky 1).toNat) (Fin.ofNat (iadd kx 1).toNat)

/-- One execution of line 63:
`sum += input.pixels[(y + ky) * w + (x + kx)] * kernel[ky + 1][kx + 1]`. -/
def accumulateTerm (input : Image) (kernel : Kernel) (w x y ky : Int)
    (sum kx : Int) : Option Int := do
  let p ← readPixel input.pixels (pixelIndex w (iadd x kx) (iadd y ky))
  pure (iadd sum (imul (p.val : Int) (kernelAt kernel ky kx)))

/-- The two nested `ky`, `kx` loops (lines 60-65), started from `sum = 0`. -/
def kernelSum (input : Image) (kernel : Kernel) (w x y : Int) : Option Int :=
  kernelOffsets.foldlM
    (fun sum ky => kernelOffsets.foldlM (accumulateTerm input kernel w x y ky) sum) 0

/-- Line 67 and the cast of line 68:
`if (sum < 0) sum = 0; if (sum > 255) sum = 255; (unsigned char)sum`. -/
def clampStore (sum : Int) : Pixel :=
  let s1 := if sum < 0 then 0 else sum
  let s2 := if s1 > 255 then 255 else s1
  Fin.ofNat (s2 % 256).toNat

/-- The value stored at pixel `(x, y)` (lines 60-67). -/
def pixelValue (input : Image) (kernel : Kernel) (divisor w : Int) (c : Int × Int) :
    Option Pixel := do
  let sum ← kernelSum input kernel w c.1 c.2
  let q ← idiv sum divisor
  pure (clampStore q)

/-- The body of the `x` loop (lines 60-68) at pixel `c = (x, y)`, acting on the
output vector. -/
def convolvePixel (input : Image) (kernel : Kernel) (divisor w : Int)
    (out : List Pixel) (c : Int × Int) : Option (List Pixel) := do
  let v ← pixelValue input kernel divisor w c
  writePixel out (pixelIndex w c.1 c.2) v

/-! ## Iteration spaces -/

/-- The values of `v` in `for (int v = lo; v < hi; v++)`. -/
def loopRange (lo hi : Int) : List Int :=
  (List.range (hi - lo).toNat).map fun (i : Nat) => lo + (i : Int)

/-- The pixels `(x, y)` visited by the loops of lines 58-59, in row-major
order: `y` from 1 below `h - 1`, and inside it `x` from 1 below `w - 1`. -/
def interior (w h : Int) : List (Int × Int) :=
  (loopRange 1 (isub h 1)).flatMap fun y => (loopRange 1 (isub w 1)).map fun x => (x, y)

/-! ## The two strategies -/

/-- The function `processSequential` (lines 53-71): the new value of `output`,
or `none` when the call does not return normally. -/
def processSequential (input output : Image) (kernel : Kernel) (divisor : Int) :
    Option Image := do
  let w := input.width
  let h := input.height
  let buf ← resizePixels output.pixels (imul w h)
  let buf ← (interior w h).foldlM (convolvePixel input kernel divisor w) buf
  pure { width := w, height := h, channels := 1, pixels := buf }

/-- A work split of the collapsed `(y, x)` loop nest: the ranges handed to the
workers, listed in the order in which they take effect; together they cover
every interior pixel exactly once. -/
def IsSchedule (w h : Int) (chunks : List (List (Int × Int))) : Prop :=
  chunks.flatten.Perm (interior w h)

/-- The function `processOpenMP` (lines 74-95) under the work split `chunks`:
the same header and the same per-pixel body, run range after range. -/
def processOpenMP (chunks : List (List (Int × Int))) (input output : Image)
    (kernel : Kernel) (divisor : Int) : Option Image := do
  let w := input.width
  let h := input.height
  let buf ← resizePixels output.pixels (imul w h)
  let buf ← chunks.foldlM
    (fun b chunk => chunk.foldlM (convolvePixel input kernel divisor w) b) buf
  pure { width := w, height := h, channels := 1, pixels := buf }

/-! ## Specification-side notions -/

/-- The integer value of `input[i]`, for an index inside the buffer. -/
def pixelInt (input : Image) (i : Int) : Int :=
  ((input.pixels.getD i.toNat 0).val : Int)

/-- The exact weighted sum
`S = Σ_{ky,kx ∈ {-1,0,1}} input[(y+ky)*W + (x+kx)] * k[ky+1][kx+1]`
over the integers. -/
def weightedSum (input : Image) (kernel : Kernel) (x y : Int) : Int :=
  (kernelOffsets.map fun ky =>
    (kernelOffsets.map fun kx =>
      pixelInt input ((y + ky) * input.width + (x + kx)) * kernelAt kernel ky kx).sum).sum

/-- The function `clamp(v, lo, hi)`. -/
def clamp (v lo hi : Int) : Int := max lo (min v hi)

/-- The sizes `w`, `h` and `w * h` are non-negative values of type `int`. -/
def FitsInt (w h : Int) : Prop :=
  0 ≤ w ∧ w ≤ INT_MAX ∧ 0 ≤ h ∧ h ≤ INT_MAX ∧ w * h ≤ INT_MAX

/-- Pixel `(x, y)` is interior: `1 ≤ x ≤ W-2` and `1 ≤ y ≤ H-2`. -/
def IsInterior (w h x y : Int) : Prop :=
  1 ≤ x ∧ x ≤ w - 2 ∧ 1 ≤ y ∧ y ≤ h - 2

/-- Pixel `(x, y)` lies on the outermost row or column of a `w × h` image. -/
def IsBorder (w h x y : Int) : Prop :=
  0 ≤ x ∧ x < w ∧ 0 ≤ y ∧ y < h ∧ (x = 0 ∨ x = w - 1 ∨ y = 0 ∨ y = h - 1)

/-- An `Image` as left by its default constructor: an empty pixel vector (the
three `int` fields are not initialised and may hold anything). -/
def IsFresh (img : Image) : Prop := img.pixels = []

/-- The division `sum /= divisor` is defined at every interior pixel: the
divisor is not zero and the quotient `INT_MIN / -1` is never asked for. -/
def DivisionDefined (input : Image) (kernel : Kernel) (divisor : Int) : Prop :=
  divisor ≠ 0 ∧ ∀ x y, IsInterior input.width input.height x y →
    ¬ (wrap32 (weightedSum input kernel x y) = INT_MIN ∧ divisor = -1)

/-- The shape shared by every per-pixel body: compute a value that does not
depend on the output vector, then store it at one index. -/
def writeStep {α : Type} (idx : α → Int) (val : α → Option Pixel)
    (out : List Pixel) (c : α) : Option (List Pixel) :=
  (val c).bind fun v => writePixel out (idx c) v

/-- The vector left by `resize(n)` (for `n ≥ 0`). -/
def resized (buf : List Pixel) (n : Nat) : List Pixel :=
  buf.take n ++ List.replicate (n - buf.length) 0

/-- A default-constructed `Image` (with its `int` fields read as 0). -/
def freshImage : Image := { width := 0, height := 0, channels := 0, pixels := [] }

/-- The spec's `applyKernel(img, kernel, divisor)`: one convolution pass into
a fresh output buffer. -/
def applyKernel (img : Image) (kernel : Kernel) (divisor : Int) : Option Image :=
  processSequential img freshImage kernel divisor

/-! ## The benchmark driver, per file -/

/-- The body of the directory loop for one decoded image (lines 140-161):
`imgBlur0`, `imgFinal0` are the two local images as declared on line 140,
`ch1`, `ch2` the work splits of the two parallel passes. The result is the pair
of images handed to `saveImage`: the sequential one, then the parallel one. -/
def benchmarkFile (ch1 ch2 : List (List (Int × Int))) (imgIn imgBlur0 imgFinal0 : Image) :
    Option (Image × Image) := do
  let imgBlur ← processSequential imgIn imgBlur0 KERNEL_BLUR 16
  let imgFinal ← processSequential imgBlur imgFinal0 KERNEL_SHARPEN 1
  let savedSeq := imgFinal
  let imgBlur ← processOpenMP ch1 imgIn imgBlur KERNEL_BLUR 16
  let imgFinal ← processOpenMP ch2 imgBlur imgFinal KERNEL_SHARPEN 1
  pure (savedSeq, imgFinal)

/-- What a `double` division yields, as far as its special values go: a finite
quotient, an infinity (with its sign) or a NaN. -/
inductive DoubleResult where
  | finite (q : Rat)
  | infinity (negative : Bool)
  | nan
deriving DecidableEq

/-- The `double` division `a / b`; the finite quotient is kept exact, only the
IEEE 754 treatment of a zero denominator matters here. -/
def fdiv (a b : Rat) : DoubleResult :=
  if b = 0 then
    if a = 0 then DoubleResult.nan else DoubleResult.infinity (decide (a < 0))
  else DoubleResult.finite (a / b)

/-- The result is one a division by zero produces. -/
def DoubleResult.isDivByZero : DoubleResult → Bool
  | DoubleResult.finite _ => false
  | _ => true

/-- The numeric fields of a per-file report row: the two elapsed times and the
speedup, `none` standing for an omitted speedup. -/
structure ReportRow where
  seqSeconds : Rat
  ompSeconds : Rat
  speedup : Option DoubleResult
deriving DecidableEq

/-- The row printed by lines 163-166 from `diffSeq.count()` and
`diffOmp.count()`: the quotient is computed unconditionally. -/
def reportRow (diffSeq diffOmp : Rat) : ReportRow :=
  { seqSeconds := diffSeq, ompSeconds := diffOmp, speedup := some (fdiv diffSeq diffOmp) }

/-- The average printed by lines 175-176, under its guard
`if (totalTimeOmp > 0)`; `none` when the line is not printed. -/
def averageSpeedup (totalTimeSeq totalTimeOmp : Rat) : Option DoubleResult :=
  if totalTimeOmp > 0 then some (fdiv totalTimeSeq totalTimeOmp) else none

/-! ## Sample inputs -/

/-- A 3x3 image with distinct pixel values. -/
def sample3x3 : Image :=
  { width := 3, height := 3, channels := 1, pixels := [10, 20, 30, 40, 50, 60, 70, 80, 90] }

/-- A 5x5 image with a bright centre. -/
def sample5x5 : Image :=
  { width := 5, height := 5, channels := 3,
    pixels := [ 0,  10,  20,  30,  40,
               50,  60,  70,  80,  90,
              100, 110, 255, 130, 140,
              150, 160, 170, 180, 190,
              200, 210, 220, 230, 240] }

/-- A 2x2 image header over an empty pixel vector. -/
def sample2x2 : Image := { width := 2, height := 2, channels := 1, pixels := [] }

/-- A work split of the 3x3 interior of a 5x5 image into four ranges, taking
effect out of row-major order. -/
def sampleChunks : List (List (Int × Int)) :=
  [[(3, 3), (2, 3)], [(1, 1), (2, 1), (3, 1)], [(1, 3)], [(1, 2), (2, 2), (3, 2)]]

/-! ## Further notions: large images, floor rounding, windows, constant images -/

/-- A 65536 x 65536 image with a buffer of 2^32 zero pixels: its pixel count is
not a value of type `int`. -/
def bigImage : Image :=
  { width := 65536, height := 65536, channels := 1, pixels := List.replicate 4294967296 0 }

/-- A 2 x 1073741825 image header over an empty pixel vector: its pixel count
2147483650 is not a value of type `int`. -/
def tallImage : Image := { width := 2, height := 1073741825, channels := 1, pixels := [] }

/-- The quotient of `sum /= divisor` as it would be under rounding toward
negative infinity (floor), defined for the same operands as `idiv`. -/
def idivFloor (a b : Int) : Option Int :=
  if b = 0 then none
  else if a = INT_MIN ∧ b = -1 then none
  else some (Int.fdiv a b)

/-- The value stored at pixel `(x, y)` when the quotient is rounded toward
negative infinity instead of toward zero. -/
def pixelValueFloor (input : Image) (kernel : Kernel) (divisor w : Int) (c : Int × Int) :
    Option Pixel := do
  let sum ← kernelSum input kernel w c.1 c.2
  let q ← idivFloor sum divisor
  pure (clampStore q)

/-- The sequential pass with the floor quotient in its per-pixel body. -/
def processSequentialFloor (input output : Image) (kernel : Kernel) (divisor : Int) :
    Option Image := do
  let w := input.width
  let h := input.height
  let buf ← resizePixels output.pixels (imul w h)
  let buf ← (interior w h).foldlM
    (fun out c => do
      let v ← pixelValueFloor input kernel divisor w c
      writePixel out (pixelIndex w c.1 c.2) v) buf
  pure { width := w, height := h, channels := 1, pixels := buf }

/-- The `w` x `h` image whose pixels all hold `v`. -/
def constImage (w h : Int) (v : Pixel) : Image :=
  { width := w, height := h, channels := 1, pixels := List.replicate (w * h).toNat v }

/-- The name of the input directory (line 113). -/
def inputFolder : String := "data"

/-- The name of the output directory of the sequential run (line 114). -/
def outSeqFolder : String := "output_sequential"

/-- The name of the output directory of the parallel run (line 115). -/
def outOmpFolder : String := "output_openmp"

/-- A directory entry as the loop of line 132 sees it: `path().filename()` and
`path().extension()` (the extension with its leading dot). -/
structure DirEntry where
  filename : String
  extension : String
deriving DecidableEq

/-- The filesystem state `main` starts from: the paths for which `fs::exists`
holds, and what `fs::directory_iterator` enumerates in the input directory
(`none` when it cannot be iterated). -/
structure FileSystem where
  existing : List String
  dataEntries : Option (List DirEntry)

/-- The collaborators of the driver: the decoder `stbi_load` (width, height,
channel count and the decoded single-channel bytes, or `none` for a null
pointer), the two durations the clock measures for a file, and the work split
OpenMP applies to the interior of a `w` x `h` image. -/
structure Environment where
  stbi_load : String → Option (Int × Int × Int × List Pixel)
  elapsed : String → Rat × Rat
  split : Int → Int → List (List (Int × Int))

/-- The function `loadImage` (lines 24-34): a failed decode yields the
zero-width sentinel, a successful one the first `width * height` bytes. -/
def loadImage (stbi_load : String → Option (Int × Int × Int × List Pixel))
    (filename : String) : Image :=
  match stbi_load filename with
  | none => { freshImage with width := 0 }
  | some (w, h, channels, data) =>
    { width := w, height := h, channels := channels, pixels := data.take (imul w h).toNat }

/-- What `main` writes to `cerr`. -/
inductive Diagnostic where
  | inputDirectoryNotFound
deriving DecidableEq

/-- The variables the directory loop updates: the two totals, `fileCount`, the
report rows printed so far (with their file name) and the images handed to
`saveImage` (with their path). -/
structure DriverState where
  totalTimeSeq : Rat
  totalTimeOmp : Rat
  fileCount : Int
  rows : List (String × ReportRow)
  saved : List (String × Image)

/-- The state before the loop (lines 124-126). -/
def initialState : DriverState :=
  { totalTimeSeq := 0, totalTimeOmp := 0, fileCount := 0, rows := [], saved := [] }

/-- The extension test of line 135: `true` when the entry is passed over. -/
def extensionRejected (ext : String) : Bool :=
  ext != ".jpg" && ext != ".png" && ext != ".jpeg"

/-- One iteration of the directory loop (lines 133-168). -/
def processEntry (env : Environment) (st : DriverState) (entry : DirEntry) :
    Option DriverState :=
  if extensionRejected entry.extension then some st
  else
    let imgIn := loadImage env.stbi_load (inputFolder ++ "/" ++ entry.filename)
    if imgIn.width = 0 then some st
    else do
      let ch := env.split imgIn.width imgIn.height
      let images ← benchmarkFile ch ch imgIn freshImage freshImage
      let diff := env.elapsed entry.filename
      pure { totalTimeSeq := st.totalTimeSeq + diff.1,
             totalTimeOmp := st.totalTimeOmp + diff.2,
             fileCount := st.fileCount + 1,
             rows := st.rows ++ [(entry.filename, reportRow diff.1 diff.2)],
             saved := st.saved ++
               [(outSeqFolder ++ "/" ++ "result_" ++ entry.filename, images.1),
                (outOmpFolder ++ "/" ++ "result_" ++ entry.filename, images.2)] }

/-- What a run of `main` leaves behind: its exit status, the paths that exist
afterwards (directories only), its diagnostics, the final loop state and the
average speedup line. -/
structure RunResult where
  exitStatus : Int
  existing : List String
  diagnostics : List Diagnostic
  state : DriverState
  average : Option DoubleResult

/-- The call `if (!fs::exists(dir)) fs::create_directory(dir)`. -/
def ensureDirectory (existing : List String) (dir : String) : List String :=
  if dir ∈ existing then existing else existing ++ [dir]

/-- The function `main` from line 113 on (the thread-count prompt and the
OpenMP banner before it touch nothing modelled here): `none` when the run
does not end by returning. -/
def main (env : Environment) (fs : FileSystem) : Option RunResult :=
  if inputFolder ∉ fs.existing then
    some { exitStatus := 1, existing := fs.existing,
           diagnostics := [Diagnostic.inputDirectoryNotFound],
           state := initialState, average := none }
  else
    let existing := ensureDirectory (ensureDirectory fs.existing outSeqFolder) outOmpFolder
    do
      let entries ← fs.dataEntries
      let st ← entries.foldlM (processEntry env) initialState
      pure { exitStatus := 0, existing := existing, diagnostics := [], state := st,
             average := averageSpeedup st.totalTimeSeq st.totalTimeOmp }

/-- An environment whose decoder rejects every file. -/
def sampleEnvironment : Environment :=
  { stbi_load := fun _ => none, elapsed := fun _ => (0, 0), split := fun _ _ => [] }

/-- A filesystem in which `data` exists and is empty, and no output directory
exists yet. -/
def emptyDataFs : FileSystem := { existing := ["data"], dataEntries := some [] }

/-- A filesystem without `data`. -/
def noDataFs : FileSystem := { existing := [], dataEntries := none }

/-- The entry passes both tests of the loop: its extension is exactly `.jpg`,
`.png` or `.jpeg`, and `loadImage` returns an image whose width is not 0. -/
def Selected (env : Environment) (entry : DirEntry) : Prop :=
  (entry.extension = ".jpg" ∨ entry.extension = ".png" ∨ entry.extension = ".jpeg")
    ∧ (loadImage env.stbi_load (inputFolder ++ "/" ++ entry.filename)).width ≠ 0

/-- The decoder honours its contract on the entry: a decoded image has sizes
`w`, `h` and `w * h` that are non-negative `int` values and exactly `w * h`
bytes; and the work split of the parallel passes covers the interior. -/
def DecodesWell (env : Environment) (entry : DirEntry) : Prop :=
  (∀ w h c data, env.stbi_load (inputFolder ++ "/" ++ entry.filename) = some (w, h, c, data) →
      FitsInt w h ∧ (data.length : Int) = w * h)
    ∧ ∀ w h, IsSchedule w h (env.split w h)

/-- An environment decoding every file to the 3x3 sample, with unit timings. -/
def decodingEnvironment : Environment :=
  { stbi_load := fun _ => some (3, 3, 1, sample3x3.pixels),
    elapsed := fun _ => (2, 1),
    split := fun w h => [interior w h] }

/-- A directory entry `a.png`. -/
def samplePng : DirEntry := { filename := "a.png", extension := ".png" }

/-- A 5x5 output image left over from an earlier use, all pixels 7. -/
def samplePrior : Image := constImage 5 5 7

/-! ## Machine-integer lemmas -/

theorem wrap32_of_fits {z : Int} (h1 : INT_MIN ≤ z) (h2 : z ≤ INT_MAX) : wrap32 z = z := by
  unfold INT_MIN at h1; unfold INT_MAX at h2; unfold wrap32; omega

theorem wrap32_add_left (a b : Int) : wrap32 (wrap32 a + b) = wrap32 (a + b) := by
  unfold wrap32; omega

theorem wrap32_add_right (a b : Int) : wrap32 (a + wrap32 b) = wrap32 (a + b) := by
  unfold wrap32; omega

theorem wrap32_range (z : Int) : INT_MIN ≤ wrap32 z ∧ wrap32 z ≤ INT_MAX := by
  unfold wrap32 INT_MIN INT_MAX; omega

theorem iadd_wrap32_imul (a p k : Int) : iadd (wrap32 a) (imul p k) = wrap32 (a + p * k) := by
  unfold iadd imul; rw [wrap32_add_left, wrap32_add_right]

theorem mem_loopRange {lo hi v : Int} : v ∈ loopRange lo hi ↔ lo ≤ v ∧ v < hi := by
  unfold loopRange
  simp only [List.mem_map, List.mem_range]
  have hmax := Int.toNat_eq_max (hi - lo)
  constructor
  · rintro ⟨i, hi1, rfl⟩
    have := Int.ofNat_lt.mpr hi1
    omega
  · rintro ⟨h1, h2⟩
    have hv := Int.toNat_of_nonneg (show 0 ≤ v - lo by omega)
    refine ⟨(v - lo).toNat, ?_, by omega⟩
    apply Int.ofNat_lt.mp
    omega

theorem mem_interior {w h : Int} (hf : FitsInt w h) {c : Int × Int} :
    c ∈ interior w h ↔ IsInterior w h c.1 c.2 := by
  obtain ⟨hw0, hw1, hh0, hh1, -⟩ := hf
  unfold INT_MAX at hw1 hh1
  have e1 : isub h 1 = h - 1 := wrap32_of_fits (by unfold INT_MIN; omega) (by unfold INT_MAX; omega)
  have e2 : isub w 1 = w - 1 := wrap32_of_fits (by unfold INT_MIN; omega) (by unfold INT_MAX; omega)
  unfold interior IsInterior
  rw [e1, e2]
  simp only [List.mem_flatMap, List.mem_map, mem_loopRange]
  constructor
  · rintro ⟨y, hy, x, hx, rfl⟩; simp only; omega
  · rintro ⟨h1, h2, h3, h4⟩
    exact ⟨c.2, by omega, c.1, by omega, rfl⟩

/-- Row-major offsets of a window position stay inside the buffer. -/
theorem index_bounds {w h x y : Int} (hx0 : 0 ≤ x) (hx1 : x < w) (hy0 : 0 ≤ y) (hy1 : y < h) :
    0 ≤ y * w + x ∧ y * w + x < w * h := by
  have hw : 0 ≤ w := by omega
  have h1 : 0 ≤ y * w := mul_nonneg hy0 hw
  have h2 : (y + 1) * w ≤ h * w := mul_le_mul_of_nonneg_right (by omega) hw
  constructor
  · omega
  · nlinarith

theorem pixelIndex_eq {w h x y : Int} (hf : FitsInt w h)
    (hx0 : 0 ≤ x) (hx1 : x < w) (hy0 : 0 ≤ y) (hy1 : y < h) :
    pixelIndex w x y = y * w + x := by
  obtain ⟨hw0, hw1, hh0, hh1, ha⟩ := hf
  obtain ⟨b0, b1⟩ := index_bounds hx0 hx1 hy0 hy1
  have hyw0 : 0 ≤ y * w := mul_nonneg hy0 hw0
  unfold INT_MAX at hw1 hh1 ha
  unfold pixelIndex iadd imul
  rw [wrap32_of_fits (z := y * w) (by unfold INT_MIN; omega) (by unfold INT_MAX; omega)]
  exact wrap32_of_fits (by unfold INT_MIN; omega) (by unfold INT_MAX; omega)

theorem iadd_small {a k : Int} (ha0 : 0 ≤ a) (ha1 : a < INT_MAX) (hk0 : -1 ≤ k) (hk1 : k ≤ 1) :
    iadd a k = a + k := by
  unfold INT_MAX at ha1
  exact wrap32_of_fits (by unfold INT_MIN; omega) (by unfold INT_MAX; omega)

theorem readPixel_window {input : Image} {h x y ky kx : Int}
    (hf : FitsInt input.width h) (hlen : (input.pixels.length : Int) = input.width * h)
    (hint : IsInterior input.width h x y)
    (hky0 : -1 ≤ ky) (hky1 : ky ≤ 1) (hkx0 : -1 ≤ kx) (hkx1 : kx ≤ 1) :
    readPixel input.pixels (pixelIndex input.width (iadd x kx) (iadd y ky))
      = some (input.pixels.getD ((y + ky) * input.width + (x + kx)).toNat 0) := by
  obtain ⟨h1, h2, h3, h4⟩ := hint
  have hf' := hf
  obtain ⟨hw0, hw1, hh0, hh1, ha⟩ := hf'
  rw [iadd_small (by omega) (by omega) hkx0 hkx1, iadd_small (by omega) (by omega) hky0 hky1,
    pixelIndex_eq hf (by omega) (by omega) (by omega) (by omega)]
  obtain ⟨b0, b1⟩ := index_bounds (w := input.width) (h := h) (x := x + kx) (y := y + ky)
    (by omega) (by omega) (by omega) (by omega)
  have hlt : ((y + ky) * input.width + (x + kx)).toNat < input.pixels.length := by
    apply Int.ofNat_lt.mp
    rw [Int.toNat_of_nonneg b0, hlen]; exact b1
  unfold readPixel
  rw [if_neg (by omega), List.getD_eq_getElem?_getD, List.getElem?_eq_getElem hlt]
  rfl

theorem kernelSum_eq {input : Image} {h x y : Int} (kernel : Kernel)
    (hf : FitsInt input.width h) (hlen : (input.pixels.length : Int) = input.width * h)
    (hint : IsInterior input.width h x y) :
    kernelSum input kernel input.width x y = some (wrap32 (weightedSum input kernel x y)) := by
  have e : ∀ ky kx a : Int, -1 ≤ ky → ky ≤ 1 → -1 ≤ kx → kx ≤ 1 →
      accumulateTerm input kernel input.width x y ky (wrap32 a) kx
        = some (wrap32 (a + pixelInt input ((y + ky) * input.width + (x + kx))
            * kernelAt kernel ky kx)) := by
    intro ky kx a h1 h2 h3 h4
    unfold accumulateTerm
    rw [readPixel_window hf hlen hint h1 h2 h3 h4]
    simp only [Option.bind_eq_bind, Option.some_bind, Option.pure_def]
    rw [iadd_wrap32_imul]; rfl
  have gen : ∀ a : Int, kernelOffsets.foldlM (fun sum ky =>
      kernelOffsets.foldlM (accumulateTerm input kernel input.width x y ky) sum) (wrap32 a)
        = some (wrap32 (a + weightedSum input kernel x y)) := by
    intro a
    unfold kernelOffsets
    simp only [List.foldlM_cons, List.foldlM_nil, Option.bind_eq_bind, Option.pure_def]
    simp (disch := norm_num) only [e, Option.some_bind]
    simp only [weightedSum, kernelOffsets, List.map_cons, List.map_nil, List.sum_cons,
      List.sum_nil]
    congr 2
    ring
  unfold kernelSum
  rw [show (0 : Int) = wrap32 0 from by decide, gen 0, zero_add]

/-! ## Loops of stores -/

theorem writePixel_eq_some {buf buf' : List Pixel} {i : Int} {v : Pixel}
    (h : writePixel buf i v = some buf') :
    0 ≤ i ∧ i.toNat < buf.length ∧ buf' = buf.set i.toNat v := by
  unfold writePixel at h
  split_ifs at h with h1 h2
  · exact ⟨by omega, h2, (Option.some.inj h).symm⟩

theorem writeStep_eq_some {α : Type} {idx : α → Int} {val : α → Option Pixel}
    {buf buf' : List Pixel} {c : α} (h : writeStep idx val buf c = some buf') :
    ∃ v, val c = some v ∧ 0 ≤ idx c ∧ (idx c).toNat < buf.length
      ∧ buf' = buf.set (idx c).toNat v := by
  unfold writeStep at h
  cases hv : val c with
  | none => rw [hv] at h; simp at h
  | some v =>
    rw [hv, Option.some_bind] at h
    exact ⟨v, rfl, writePixel_eq_some h⟩

theorem foldlM_cons_some {α : Type} {idx : α → Int} {val : α → Option Pixel}
    {buf buf' : List Pixel} {c : α} {l : List α}
    (h : (c :: l).foldlM (writeStep idx val) buf = some buf') :
    ∃ buf1, writeStep idx val buf c = some buf1
      ∧ l.foldlM (writeStep idx val) buf1 = some buf' := by
  rw [List.foldlM_cons] at h
  cases hs : writeStep idx val buf c with
  | none => rw [hs] at h; simp at h
  | some b => rw [hs] at h; exact ⟨b, rfl, h⟩

/-- Frame: a run of the loop keeps the length of the vector and every element
whose index no iteration stores to. -/
theorem foldlM_frame {α : Type} (idx : α → Int) (val : α → Option Pixel) (l : List α) :
    ∀ buf buf' : List Pixel, l.foldlM (writeStep idx val) buf = some buf' →
      buf'.length = buf.length
        ∧ ∀ i : Nat, (∀ c ∈ l, idx c ≠ (i : Int)) → buf'[i]? = buf[i]? := by
  induction l with
  | nil =>
    intro buf buf' h
    have : buf = buf' := by simpa using h
    subst this; exact ⟨rfl, fun _ _ => rfl⟩
  | cons c l ih =>
    intro buf buf' h
    obtain ⟨buf1, h1, h2⟩ := foldlM_cons_some h
    obtain ⟨v, -, h0, -, rfl⟩ := writeStep_eq_some h1
    obtain ⟨hl, hfr⟩ := ih _ _ h2
    refine ⟨by rw [hl, List.length_set], fun i hi => ?_⟩
    rw [hfr i (fun c' hc' => hi c' (List.mem_cons_of_mem _ hc'))]
    have hne : (idx c).toNat ≠ i := by
      have := hi c (List.mem_cons_self _ _)
      omega
    exact List.getElem?_set_ne hne

/-- A run that returns has computed every value and stored it in bounds. -/
theorem foldlM_defined {α : Type} (idx : α → Int) (val : α → Option Pixel) (l : List α) :
    ∀ buf buf' : List Pixel, l.foldlM (writeStep idx val) buf = some buf' →
      ∀ c ∈ l, (val c).isSome ∧ 0 ≤ idx c ∧ idx c < (buf.length : Int) := by
  induction l with
  | nil => intro _ _ _ c hc; simp at hc
  | cons c0 l ih =>
    intro buf buf' h c hc
    obtain ⟨buf1, h1, h2⟩ := foldlM_cons_some h
    obtain ⟨v, hv, h0, hlt, rfl⟩ := writeStep_eq_some h1
    rcases List.mem_cons.mp hc with rfl | hc'
    · refine ⟨by rw [hv]; rfl, h0, ?_⟩
      omega
    · have := ih _ _ h2 c hc'
      rwa [List.length_set] at this

/-- Conversely a run returns when every value is defined and every index is
in bounds. -/
theorem foldlM_returns {α : Type} (idx : α → Int) (val : α → Option Pixel) (l : List α) :
    ∀ buf : List Pixel,
      (∀ c ∈ l, (val c).isSome ∧ 0 ≤ idx c ∧ idx c < (buf.length : Int)) →
      ∃ buf', l.foldlM (writeStep idx val) buf = some buf' := by
  induction l with
  | nil => intro buf _; exact ⟨buf, rfl⟩
  | cons c0 l ih =>
    intro buf h
    obtain ⟨hv, h0, hlt⟩ := h c0 (List.mem_cons_self _ _)
    obtain ⟨v, hv⟩ := Option.isSome_iff_exists.mp hv
    have hw : writeStep idx val buf c0 = some (buf.set (idx c0).toNat v) := by
      unfold writeStep writePixel
      rw [hv, Option.some_bind, if_neg (by omega), if_pos (by omega)]
    obtain ⟨buf', hb⟩ := ih (buf.set (idx c0).toNat v) (fun c hc => by
      rw [List.length_set]; exact h c (List.mem_cons_of_mem _ hc))
    exact ⟨buf', by rw [List.foldlM_cons, hw]; exact hb⟩

/-- After a run, the element at the index of a visited pixel is the value
computed for that pixel, provided pixels sharing an index share their value. -/
theorem foldlM_written {α : Type} (idx : α → Int) (val : α → Option Pixel) (l : List α) :
    ∀ buf buf' : List Pixel, l.foldlM (writeStep idx val) buf = some buf' →
      (∀ c ∈ l, ∀ c' ∈ l, idx c = idx c' → val c = val c') →
      ∀ c ∈ l, buf'[(idx c).toNat]? = val c := by
  induction l with
  | nil => intro _ _ _ _ c hc; simp at hc
  | cons c0 l ih =>
    intro buf buf' h hcons c hc
    obtain ⟨buf1, h1, h2⟩ := foldlM_cons_some h
    obtain ⟨v, hv, h0, hlt, rfl⟩ := writeStep_eq_some h1
    by_cases hex : ∃ c' ∈ l, idx c' = idx c
    · obtain ⟨c', hc', he⟩ := hex
      have := ih _ _ h2 (fun a ha b hb => hcons a (List.mem_cons_of_mem _ ha) b
        (List.mem_cons_of_mem _ hb)) c' hc'
      rw [← he, this]
      exact hcons c' (List.mem_cons_of_mem _ hc') c hc he
    · have hnot : ∀ c' ∈ l, idx c' ≠ idx c := fun c' hc' he => hex ⟨c', hc', he⟩
      have hc0 : c = c0 := by
        rcases List.mem_cons.mp hc with rfl | hc'
        · rfl
        · exact absurd rfl (hnot c hc')
      subst hc0
      obtain ⟨-, hfr⟩ := foldlM_frame idx val l _ _ h2
      rw [hfr (idx c).toNat (fun c' hc' => by
        rw [Int.toNat_of_nonneg h0]; exact hnot c' hc'), hv]
      exact List.getElem?_set_self hlt

/-- Two runs from the same vector over the same set of pixels agree: both fail,
or both return the same vector. -/
theorem foldlM_congr_mem {α : Type} (idx : α → Int) (val : α → Option Pixel)
    (l1 l2 : List α) (hmem : ∀ c, c ∈ l1 ↔ c ∈ l2)
    (hcons : ∀ c ∈ l1, ∀ c' ∈ l1, idx c = idx c' → val c = val c') (buf : List Pixel) :
    l1.foldlM (writeStep idx val) buf = l2.foldlM (writeStep idx val) buf := by
  have hcons2 : ∀ c ∈ l2, ∀ c' ∈ l2, idx c = idx c' → val c = val c' :=
    fun c hc c' hc' => hcons c ((hmem c).mpr hc) c' ((hmem c').mpr hc')
  have key : ∀ (la lb : List α), (∀ c, c ∈ la ↔ c ∈ lb) →
      (∀ c ∈ la, ∀ c' ∈ la, idx c = idx c' → val c = val c') →
      (∀ c ∈ lb, ∀ c' ∈ lb, idx c = idx c' → val c = val c') →
      ∀ b1, la.foldlM (writeStep idx val) buf = some b1 →
        lb.foldlM (writeStep idx val) buf = some b1 := by
    intro la lb hm ha hb b1 h1
    obtain ⟨b2, h2⟩ := foldlM_returns idx val lb buf (fun c hc =>
      foldlM_defined idx val la _ _ h1 c ((hm c).mpr hc))
    rw [h2]; congr 1
    obtain ⟨hl1, hf1⟩ := foldlM_frame idx val la _ _ h1
    obtain ⟨hl2, hf2⟩ := foldlM_frame idx val lb _ _ h2
    apply List.ext_getElem?
    intro i
    by_cases hex : ∃ c ∈ la, idx c = (i : Int)
    · obtain ⟨c, hc, he⟩ := hex
      have w1 := foldlM_written idx val la _ _ h1 ha c hc
      have w2 := foldlM_written idx val lb _ _ h2 hb c ((hm c).mp hc)
      rw [he, Int.toNat_ofNat] at w1 w2
      rw [w1, w2]
    · have hn : ∀ c ∈ la, idx c ≠ (i : Int) := fun c hc he => hex ⟨c, hc, he⟩
      rw [hf2 i (fun c hc => hn c ((hm c).mpr hc)), hf1 i hn]
  cases h1 : l1.foldlM (writeStep idx val) buf with
  | some b1 => exact (key l1 l2 hmem hcons hcons2 b1 h1).symm
  | none =>
    cases h2 : l2.foldlM (writeStep idx val) buf with
    | none => rfl
    | some b2 =>
      have := key l2 l1 (fun c => (hmem c).symm) hcons2 hcons b2 h2
      rw [h1] at this; simp at this

/-! ## The passes as loops of stores -/

theorem convolvePixel_eq (input : Image) (kernel : Kernel) (divisor w : Int) :
    convolvePixel input kernel divisor w
      = writeStep (fun c => pixelIndex w c.1 c.2) (pixelValue input kernel divisor w) := by
  funext out c; rfl

theorem length_resized (buf : List Pixel) (n : Nat) : (resized buf n).length = n := by
  unfold resized
  rw [List.length_append, List.length_take, List.length_replicate]
  omega

theorem resized_of_length {buf : List Pixel} {n : Nat} (h : buf.length = n) :
    resized buf n = buf := by
  unfold resized
  rw [← h, List.take_length, Nat.sub_self]
  simp

theorem resized_nil (n : Nat) : resized [] n = List.replicate n 0 := by
  unfold resized; simp

theorem resizePixels_eq {w h : Int} (hf : FitsInt w h) (buf : List Pixel) :
    resizePixels buf (imul w h) = some (resized buf (w * h).toNat) := by
  obtain ⟨hw0, -, hh0, -, ha⟩ := hf
  have h0 : 0 ≤ w * h := mul_nonneg hw0 hh0
  have e : imul w h = w * h := wrap32_of_fits (by unfold INT_MIN; omega) ha
  unfold resizePixels
  rw [e, if_neg (by omega)]; rfl

theorem foldlM_chunks {β : Type} (f : β → (Int × Int) → Option β)
    (chunks : List (List (Int × Int))) :
    ∀ b : β, chunks.foldlM (fun b chunk => chunk.foldlM f b) b = chunks.flatten.foldlM f b := by
  induction chunks with
  | nil => intro b; rfl
  | cons ch rest ih =>
    intro b
    rw [List.flatten_cons, List.foldlM_append, List.foldlM_cons]
    cases ch.foldlM f b with
    | none => rfl
    | some b1 => exact ih b1

theorem processSequential_eq {input : Image} (hf : FitsInt input.width input.height)
    (output : Image) (kernel : Kernel) (divisor : Int) :
    processSequential input output kernel divisor
      = ((interior input.width input.height).foldlM
          (writeStep (fun c => pixelIndex input.width c.1 c.2)
            (pixelValue input kernel divisor input.width))
          (resized output.pixels (input.width * input.height).toNat)).map
        fun buf => { width := input.width, height := input.height, channels := 1,
                     pixels := buf } := by
  unfold processSequential
  dsimp only
  rw [resizePixels_eq hf, convolvePixel_eq]
  simp only [Option.bind_eq_bind, Option.some_bind, Option.pure_def]
  cases (interior input.width input.height).foldlM
    (writeStep (fun c => pixelIndex input.width c.1 c.2)
      (pixelValue input kernel divisor input.width))
    (resized output.pixels (input.width * input.height).toNat) <;> rfl

theorem processOpenMP_eq {input : Image} (hf : FitsInt input.width input.height)
    (chunks : List (List (Int × Int))) (output : Image) (kernel : Kernel) (divisor : Int) :
    processOpenMP chunks input output kernel divisor
      = (chunks.flatten.foldlM
          (writeStep (fun c => pixelIndex input.width c.1 c.2)
            (pixelValue input kernel divisor input.width))
          (resized output.pixels (input.width * input.height).toNat)).map
        fun buf => { width := input.width, height := input.height, channels := 1,
                     pixels := buf } := by
  unfold processOpenMP
  dsimp only
  rw [resizePixels_eq hf, convolvePixel_eq]
  simp only [Option.bind_eq_bind, Option.some_bind, Option.pure_def]
  rw [foldlM_chunks]
  cases chunks.flatten.foldlM
    (writeStep (fun c => pixelIndex input.width c.1 c.2)
      (pixelValue input kernel divisor input.width))
    (resized output.pixels (input.width * input.height).toNat) <;> rfl

/-! ## Row-major indices -/

theorem index_inj {w x y x' y' : Int} (hx0 : 0 ≤ x) (hx1 : x < w) (hx0' : 0 ≤ x')
    (hx1' : x' < w) (he : y * w + x = y' * w + x') : x = x' ∧ y = y' := by
  have hw : 0 < w := by omega
  have e1 : (y * w + x) % w = x := by
    rw [add_comm, Int.add_mul_emod_self]; exact Int.emod_eq_of_lt hx0 hx1
  have e2 : (y' * w + x') % w = x' := by
    rw [add_comm, Int.add_mul_emod_self]; exact Int.emod_eq_of_lt hx0' hx1'
  have hx : x = x' := by rw [← e1, he, e2]
  refine ⟨hx, ?_⟩
  subst hx
  have : y * w = y' * w := by omega
  exact Int.eq_of_mul_eq_mul_right (by omega) this

theorem interior_index {w h x y : Int} (hf : FitsInt w h) (hint : IsInterior w h x y) :
    pixelIndex w x y = y * w + x ∧ 0 ≤ y * w + x ∧ y * w + x < w * h := by
  obtain ⟨h1, h2, h3, h4⟩ := hint
  exact ⟨pixelIndex_eq hf (by omega) (by omega) (by omega) (by omega),
    index_bounds (by omega) (by omega) (by omega) (by omega)⟩

theorem interior_consistent {w h : Int} (hf : FitsInt w h) (val : Int × Int → Option Pixel) :
    ∀ c ∈ interior w h, ∀ c' ∈ interior w h,
      pixelIndex w c.1 c.2 = pixelIndex w c'.1 c'.2 → val c = val c' := by
  intro c hc c' hc' he
  have i1 := (mem_interior hf).mp hc
  have i2 := (mem_interior hf).mp hc'
  rw [(interior_index hf i1).1, (interior_index hf i2).1] at he
  obtain ⟨a1, a2, -, -⟩ := i1
  obtain ⟨b1, b2, -, -⟩ := i2
  obtain ⟨e1, e2⟩ := index_inj (by omega) (by omega) (by omega) (by omega) he
  rw [Prod.ext e1 e2]

/-! ## Behaviour of the passes -/

/-- Any work split gives the result of the sequential pass. -/
theorem processOpenMP_eq_processSequential {input : Image}
    (hf : FitsInt input.width input.height) {chunks : List (List (Int × Int))}
    (hs : IsSchedule input.width input.height chunks) (output : Image) (kernel : Kernel)
    (divisor : Int) :
    processOpenMP chunks input output kernel divisor
      = processSequential input output kernel divisor := by
  rw [processOpenMP_eq hf, processSequential_eq hf]
  congr 1
  exact (foldlM_congr_mem _ _ _ _ (fun c => (List.Perm.mem_iff hs).symm)
    (interior_consistent hf _) _).symm

/-- What a returning sequential pass leaves in `output`. -/
theorem processSequential_post {input output out' : Image} {kernel : Kernel} {divisor : Int}
    (hf : FitsInt input.width input.height)
    (h : processSequential input output kernel divisor = some out') :
    out'.width = input.width ∧ out'.height = input.height ∧ out'.channels = 1
      ∧ out'.pixels.length = (input.width * input.height).toNat
      ∧ (∀ x y, IsInterior input.width input.height x y →
          out'.pixels[(y * input.width + x).toNat]?
            = pixelValue input kernel divisor input.width (x, y))
      ∧ (∀ i : Nat, (∀ x y, IsInterior input.width input.height x y →
            y * input.width + x ≠ (i : Int)) →
          out'.pixels[i]? = (resized output.pixels (input.width * input.height).toNat)[i]?) := by
  rw [processSequential_eq hf] at h
  obtain ⟨buf, hb, rfl⟩ := Option.map_eq_some'.mp h
  obtain ⟨hl, hfr⟩ := foldlM_frame _ _ _ _ _ hb
  refine ⟨rfl, rfl, rfl, by rw [hl, length_resized], ?_, ?_⟩
  · intro x y hint
    have := foldlM_written _ _ _ _ _ hb (interior_consistent hf _) (x, y)
      ((mem_interior hf).mpr hint)
    simp only at this
    rwa [(interior_index hf hint).1] at this
  · intro i hi
    apply hfr
    intro c hc
    have hint := (mem_interior hf).mp hc
    rw [(interior_index hf hint).1]
    exact hi _ _ hint

theorem pixelValue_eq {input : Image} {x y : Int} (kernel : Kernel) (divisor : Int)
    (hf : FitsInt input.width input.height)
    (hlen : (input.pixels.length : Int) = input.width * input.height)
    (hint : IsInterior input.width input.height x y) :
    pixelValue input kernel divisor input.width (x, y)
      = (idiv (wrap32 (weightedSum input kernel x y)) divisor).map clampStore := by
  unfold pixelValue
  rw [kernelSum_eq kernel hf hlen hint]
  simp only [Option.bind_eq_bind, Option.some_bind, Option.pure_def]
  cases idiv _ _ <;> rfl

theorem idiv_defined {a b : Int} (hb : b ≠ 0) (hab : ¬ (a = INT_MIN ∧ b = -1)) :
    idiv a b = some (Int.tdiv a b) := by
  unfold idiv; rw [if_neg hb, if_neg hab]

/-- The sequential pass returns on a well-formed image when its division is
defined. -/
theorem processSequential_returns {input : Image} {kernel : Kernel} {divisor : Int}
    (hf : FitsInt input.width input.height)
    (hlen : (input.pixels.length : Int) = input.width * input.height)
    (hdiv : DivisionDefined input kernel divisor) (output : Image) :
    ∃ out', processSequential input output kernel divisor = some out' := by
  rw [processSequential_eq hf]
  obtain ⟨buf, hb⟩ := foldlM_returns (fun c : Int × Int => pixelIndex input.width c.1 c.2)
    (pixelValue input kernel divisor input.width) (interior input.width input.height)
    (resized output.pixels (input.width * input.height).toNat) (by
      intro c hc
      have hint := (mem_interior hf).mp hc
      obtain ⟨e, b0, b1⟩ := interior_index hf hint
      dsimp only
      refine ⟨?_, by rw [e]; exact b0, ?_⟩
      · rw [show c = (c.1, c.2) from rfl, pixelValue_eq kernel divisor hf hlen hint,
          idiv_defined hdiv.1 (hdiv.2 _ _ hint)]
        rfl
      · rw [e, length_resized, Int.toNat_of_nonneg (by omega)]; exact b1)
  exact ⟨_, by rw [hb]; rfl⟩

/-- Running the pass again on its own output changes nothing. -/
theorem processSequential_again {input output out1 : Image} {kernel : Kernel} {divisor : Int}
    (hf : FitsInt input.width input.height)
    (h : processSequential input output kernel divisor = some out1) :
    processSequential input out1 kernel divisor = some out1 := by
  obtain ⟨e1, e2, e3, hl, -, -⟩ := processSequential_post hf h
  rw [processSequential_eq hf] at h ⊢
  obtain ⟨buf, hb, rfl⟩ := Option.map_eq_some'.mp h
  simp only at hl
  rw [resized_of_length hl]
  obtain ⟨hl1, -⟩ := foldlM_frame _ _ _ _ _ hb
  obtain ⟨buf2, hb2⟩ := foldlM_returns (fun c : Int × Int => pixelIndex input.width c.1 c.2)
    (pixelValue input kernel divisor input.width) (interior input.width input.height) buf
    (fun c hc => by rw [hl1]; exact foldlM_defined _ _ _ _ _ hb c hc)
  rw [hb2]
  obtain ⟨hl2, hf2⟩ := foldlM_frame _ _ _ _ _ hb2
  have : buf2 = buf := by
    apply List.ext_getElem?
    intro i
    by_cases hex : ∃ c ∈ interior input.width input.height,
        pixelIndex input.width c.1 c.2 = (i : Int)
    · obtain ⟨c, hc, he⟩ := hex
      have w1 := foldlM_written _ _ _ _ _ hb (interior_consistent hf _) c hc
      have w2 := foldlM_written _ _ _ _ _ hb2 (interior_consistent hf _) c hc
      simp only at w1 w2
      rw [he, Int.toNat_ofNat] at w1 w2
      rw [w1, w2]
    · exact hf2 i (fun c hc he => hex ⟨c, hc, he⟩)
  rw [this]; rfl

theorem processSequential_fresh {output : Image} (hfresh : IsFresh output) (input : Image)
    (kernel : Kernel) (divisor : Int) :
    processSequential input output kernel divisor
      = processSequential input freshImage kernel divisor := by
  unfold IsFresh at hfresh
  unfold processSequential freshImage
  rw [hfresh]

/-! ## Division and clamping -/

theorem clampStore_val (q : Int) : ((clampStore q).val : Int) = clamp q 0 255 := by
  unfold clampStore clamp
  simp only [Fin.ofNat]
  split_ifs <;> omega

theorem clampStore_low {q : Int} (h : q ≤ 0) : clampStore q = 0 := by
  apply Fin.ext
  have := clampStore_val q
  unfold clamp at this
  have e : ((0 : Fin 256).val : Int) = 0 := by decide
  omega

theorem tdiv_nonpos_of_neg {s d : Int} (hd : 0 < d) (h : s < 0) : Int.tdiv s d ≤ 0 := by
  have e : s = -(-s) := by omega
  rw [e, Int.neg_tdiv]
  have := Int.tdiv_nonneg (a := -s) (b := d) (by omega) (by omega)
  omega

theorem divisionDefined_of_ne {input : Image} {kernel : Kernel} {divisor : Int}
    (h0 : divisor ≠ 0) (h1 : divisor ≠ -1) : DivisionDefined input kernel divisor :=
  ⟨h0, fun _ _ _ h => h1 h.2⟩

/-! ## The contract of the convolution engine -/

/-- C2: on an image of size at least 3x3 whose buffer has length W*H, for BLUR
with divisor 16 and for SHARPEN with divisor 1, from the same initial output
image, `processSequential` returns and `processOpenMP` returns the very same
image under every work split of the interior iteration space. -/
theorem processOpenMP_matches_processSequential (input output : Image)
    (chunks : List (List (Int × Int))) (hf : FitsInt input.width input.height)
    (hlen : (input.pixels.length : Int) = input.width * input.height)
    (hs : IsSchedule input.width input.height chunks) :
    (∃ out', processSequential input output KERNEL_BLUR 16 = some out'
        ∧ processOpenMP chunks input output KERNEL_BLUR 16 = some out')
      ∧ (∃ out', processSequential input output KERNEL_SHARPEN 1 = some out'
        ∧ processOpenMP chunks input output KERNEL_SHARPEN 1 = some out') := by
  constructor
  · have hdiv : DivisionDefined input KERNEL_BLUR 16 :=
      divisionDefined_of_ne (by decide) (by decide)
    obtain ⟨out', ho⟩ := processSequential_returns hf hlen hdiv output
    exact ⟨out', ho, by rw [processOpenMP_eq_processSequential hf hs, ho]⟩
  · have hdiv : DivisionDefined input KERNEL_SHARPEN 1 :=
      divisionDefined_of_ne (by decide) (by decide)
    obtain ⟨out', ho⟩ := processSequential_returns hf hlen hdiv output
    exact ⟨out', ho, by rw [processOpenMP_eq_processSequential hf hs, ho]⟩

theorem border_not_interior {w h x y : Int} (hb : IsBorder w h x y) :
    ∀ x' y', IsInterior w h x' y' → y' * w + x' ≠ y * w + x := by
  intro x' y' hint he
  obtain ⟨b1, b2, b3, b4, b5⟩ := hb
  obtain ⟨i1, i2, i3, i4⟩ := hint
  obtain ⟨e1, e2⟩ := index_inj (by omega) (by omega) (by omega) (by omega) he
  omega

/-- C3: called with a freshly constructed (empty) output image, for any kernel
and divisor, whatever `processSequential` or `processOpenMP` returns has 0 at
every pixel with x = 0, x = W-1, y = 0 or y = H-1; and both do return when the
buffer has length W*H and the division is defined. -/
theorem border_pixels_zero (input output : Image) (kernel : Kernel) (divisor : Int)
    (chunks : List (List (Int × Int))) (hf : FitsInt input.width input.height)
    (hfresh : IsFresh output) (hs : IsSchedule input.width input.height chunks) :
    (∀ out', (processSequential input output kernel divisor = some out'
          ∨ processOpenMP chunks input output kernel divisor = some out') →
        ∀ x y, IsBorder input.width input.height x y →
          out'.pixels[(y * input.width + x).toNat]? = some 0)
      ∧ ((input.pixels.length : Int) = input.width * input.height →
          DivisionDefined input kernel divisor →
          ∃ out', processSequential input output kernel divisor = some out'
            ∧ processOpenMP chunks input output kernel divisor = some out') := by
  constructor
  · intro out' ho x y hb
    rw [processOpenMP_eq_processSequential hf hs, or_self] at ho
    obtain ⟨-, -, -, -, -, hfr⟩ := processSequential_post hf ho
    obtain ⟨b1, b2, b3, b4, -⟩ := id hb
    obtain ⟨i0, i1⟩ := index_bounds b1 b2 b3 b4
    rw [hfr, hfresh, resized_nil, List.getElem?_replicate, if_pos]
    · apply Int.ofNat_lt.mp
      rw [Int.toNat_of_nonneg i0, Int.toNat_of_nonneg (by omega)]; exact i1
    · intro x' y' hint
      rw [Int.toNat_of_nonneg i0]
      exact border_not_interior hb x' y' hint
  · intro hlen hdiv
    obtain ⟨out', ho⟩ := processSequential_returns hf hlen hdiv output
    exact ⟨out', ho, by rw [processOpenMP_eq_processSequential hf hs, ho]⟩

theorem processOpenMP_shape {input output out' : Image} {kernel : Kernel} {divisor : Int}
    {chunks : List (List (Int × Int))} (hf : FitsInt input.width input.height)
    (h : processOpenMP chunks input output kernel divisor = some out') :
    out'.width = input.width ∧ out'.height = input.height ∧ out'.channels = 1
      ∧ out'.pixels.length = (input.width * input.height).toNat := by
  rw [processOpenMP_eq hf] at h
  obtain ⟨buf, hb, rfl⟩ := Option.map_eq_some'.mp h
  obtain ⟨hl, -⟩ := foldlM_frame _ _ _ _ _ hb
  exact ⟨rfl, rfl, rfl, by rw [hl, length_resized]⟩

theorem toNat_area {w h : Int} (hf : FitsInt w h) : ((w * h).toNat : Int) = w * h :=
  Int.toNat_of_nonneg (mul_nonneg hf.1 hf.2.2.1)

/-- C5: for sizes W, H ≥ 0, any kernel, divisor, work split and prior state of
the output image, whatever `processSequential` or `processOpenMP` returns has
width W, height H, one channel and a buffer of exactly W*H pixels (so its
length is its own width times height); and the call does return when the
input buffer has length W*H and the division is defined. -/
theorem shape_invariant (input output : Image) (kernel : Kernel) (divisor : Int)
    (chunks : List (List (Int × Int))) (hf : FitsInt input.width input.height) :
    (∀ out', (processSequential input output kernel divisor = some out'
          ∨ processOpenMP chunks input output kernel divisor = some out') →
        out'.width = input.width ∧ out'.height = input.height ∧ out'.channels = 1
          ∧ (out'.pixels.length : Int) = input.width * input.height
          ∧ (out'.pixels.length : Int) = out'.width * out'.height)
      ∧ ((input.pixels.length : Int) = input.width * input.height →
          DivisionDefined input kernel divisor →
          ∃ out', processSequential input output kernel divisor = some out') := by
  constructor
  · rintro out' (ho | ho)
    · obtain ⟨e1, e2, e3, e4, -, -⟩ := processSequential_post hf ho
      exact ⟨e1, e2, e3, by rw [e4, toNat_area hf], by rw [e4, toNat_area hf, e1, e2]⟩
    · obtain ⟨e1, e2, e3, e4⟩ := processOpenMP_shape hf ho
      exact ⟨e1, e2, e3, by rw [e4, toNat_area hf], by rw [e4, toNat_area hf, e1, e2]⟩
  · intro hlen hdiv
    exact processSequential_returns hf hlen hdiv output

theorem interior_eq_nil {w h : Int} (hf : FitsInt w h) (hsmall : w < 3 ∨ h < 3) :
    interior w h = [] := by
  apply List.eq_nil_iff_forall_not_mem.mpr
  intro c hc
  obtain ⟨h1, h2, h3, h4⟩ := (mem_interior hf).mp hc
  omega

/-- C6, as amended: for an image with W < 3 or H < 3 whose sizes W, H and W*H
are non-negative values of type `int`, any kernel, any divisor (0 included)
and any input buffer (an empty one included, on which every read would fail),
`processSequential` called with a fresh output runs its loop body over no
pixel at all and returns the all-zero image of W*H pixels. -/
theorem small_image_all_zero (input output : Image) (kernel : Kernel) (divisor : Int)
    (hf : FitsInt input.width input.height)
    (hsmall : input.width < 3 ∨ input.height < 3) (hfresh : IsFresh output) :
    interior input.width input.height = []
      ∧ processSequential input output kernel divisor
        = some { width := input.width, height := input.height, channels := 1,
                 pixels := List.replicate (input.width * input.height).toNat 0 } := by
  refine ⟨interior_eq_nil hf hsmall, ?_⟩
  rw [processSequential_eq hf, interior_eq_nil hf hsmall, hfresh, resized_nil]
  rfl

/-- C6, as stated, fails when W*H is not a value of type `int`: for the header
of width 2 and height 1073741825 (0 ≤ W, 0 ≤ H, W < 3) the product `w * h`
wraps to -2147483646, `resize` is called with that negative size and the pass
does not return. -/
theorem small_image_overflow_counterexample :
    0 ≤ tallImage.width ∧ 0 ≤ tallImage.height ∧ tallImage.width < 3
      ∧ IsFresh freshImage
      ∧ imul tallImage.width tallImage.height = -2147483646
      ∧ resizePixels freshImage.pixels (imul tallImage.width tallImage.height) = none
      ∧ processSequential tallImage freshImage KERNEL_BLUR 16 = none := by
  refine ⟨by decide, by decide, by decide, rfl, by decide, by decide, by decide⟩

/-- C7: when `processSequential` returns `out1`, calling it again with the same
input, kernel and divisor and with `out1` as the output image returns `out1`
unchanged; and the first call does return when the input buffer has length W*H
and the division is defined. -/
theorem repeated_call_unchanged (input output : Image) (kernel : Kernel) (divisor : Int)
    (hf : FitsInt input.width input.height) :
    (∀ out1, processSequential input output kernel divisor = some out1 →
        processSequential input out1 kernel divisor = some out1)
      ∧ ((input.pixels.length : Int) = input.width * input.height →
          DivisionDefined input kernel divisor →
          ∃ out1, processSequential input output kernel divisor = some out1) :=
  ⟨fun _ h => processSequential_again hf h,
    fun hlen hdiv => processSequential_returns hf hlen hdiv output⟩

/-- C8: for a decoded image (buffer of length W*H), chaining
`applyKernel(applyKernel(img, BLUR, 16), SHARPEN, 1)` on fresh buffers yields an
image `final`, and the driver saves exactly `final` both after its sequential
run (on the fresh `imgBlur`, `imgFinal`) and after its parallel run, which
reuses the two buffers the sequential run has filled. -/
theorem pipeline_composition (imgIn imgBlur0 imgFinal0 : Image)
    (ch1 ch2 : List (List (Int × Int))) (hf : FitsInt imgIn.width imgIn.height)
    (hlen : (imgIn.pixels.length : Int) = imgIn.width * imgIn.height)
    (hb : IsFresh imgBlur0) (hfin : IsFresh imgFinal0)
    (hs1 : IsSchedule imgIn.width imgIn.height ch1)
    (hs2 : IsSchedule imgIn.width imgIn.height ch2) :
    ∃ final, (applyKernel imgIn KERNEL_BLUR 16).bind
        (fun blurred => applyKernel blurred KERNEL_SHARPEN 1) = some final
      ∧ benchmarkFile ch1 ch2 imgIn imgBlur0 imgFinal0 = some (final, final) := by
  have hdiv1 : DivisionDefined imgIn KERNEL_BLUR 16 :=
    divisionDefined_of_ne (by decide) (by decide)
  obtain ⟨blur, hblur⟩ := processSequential_returns hf hlen hdiv1 freshImage
  obtain ⟨e1, e2, -, e4, -, -⟩ := processSequential_post hf hblur
  have hf2 : FitsInt blur.width blur.height := by rw [e1, e2]; exact hf
  have hlen2 : (blur.pixels.length : Int) = blur.width * blur.height := by
    rw [e4, toNat_area hf, e1, e2]
  have hdiv2 : DivisionDefined blur KERNEL_SHARPEN 1 :=
    divisionDefined_of_ne (by decide) (by decide)
  obtain ⟨final, hfinal⟩ := processSequential_returns hf2 hlen2 hdiv2 freshImage
  have hs2' : IsSchedule blur.width blur.height ch2 := by rw [e1, e2]; exact hs2
  refine ⟨final, ?_, ?_⟩
  · unfold applyKernel
    rw [hblur, Option.some_bind, hfinal]
  · unfold benchmarkFile
    rw [processSequential_fresh hb, hblur]
    simp only [Option.bind_eq_bind, Option.some_bind, Option.pure_def]
    rw [processSequential_fresh hfin, hfinal, Option.some_bind,
      processOpenMP_eq_processSequential hf hs1, processSequential_again hf hblur,
      Option.some_bind, processOpenMP_eq_processSequential hf2 hs2',
      processSequential_again hf2 hfinal, Option.some_bind]

/-- C9: for the 5x5 input whose 25 pixels are all 100, `processSequential` with
`KERNEL_BLUR` and divisor 16 on a fresh output returns the 5x5 image with 100
at the nine interior pixels (pixel (2,2) among them) and 0 at the sixteen
border pixels. -/
theorem blur_5x5_all_100 (channels : Int) (output : Image) (hfresh : IsFresh output) :
    processSequential
        { width := 5, height := 5, channels := channels, pixels := List.replicate 25 100 }
        output KERNEL_BLUR 16
      = some { width := 5, height := 5, channels := 1,
               pixels := [0,   0,   0,   0, 0,
                          0, 100, 100, 100, 0,
                          0, 100, 100, 100, 0,
                          0, 100, 100, 100, 0,
                          0,   0,   0,   0, 0] } := by
  rw [processSequential_fresh hfresh]
  have e : processSequential
      { width := 5, height := 5, channels := channels, pixels := List.replicate 25 100 }
      freshImage KERNEL_BLUR 16
      = processSequential
        { width := 5, height := 5, channels := 0, pixels := List.replicate 25 100 }
        freshImage KERNEL_BLUR 16 := rfl
  rw [e]
  decide

/-- C10 (evidence of the defect): with a parallel elapsed time of exactly zero
the per-file row holds a division-by-zero result, an infinity for a nonzero
sequential time and a NaN for a zero one, whereas the average line, which is
guarded, is omitted. -/
theorem reportRow_zero_parallel_time :
    (∀ diffSeq : Rat, ∃ q, (reportRow diffSeq 0).speedup = some q ∧ q.isDivByZero = true)
      ∧ (reportRow 1 0).speedup = some (DoubleResult.infinity false)
      ∧ (reportRow 0 0).speedup = some DoubleResult.nan
      ∧ (∀ totalTimeSeq : Rat, averageSpeedup totalTimeSeq 0 = none) := by
  refine ⟨fun d => ?_, ?_, ?_, fun t => ?_⟩
  · by_cases h : d = 0
    · exact ⟨DoubleResult.nan, by simp [reportRow, fdiv, h], rfl⟩
    · exact ⟨DoubleResult.infinity (decide (d < 0)), by simp [reportRow, fdiv, h], rfl⟩
  · simp [reportRow, fdiv]
  · simp [reportRow, fdiv]
  · simp [averageSpeedup]

/-! ## Instances on the sample inputs -/

theorem fitsInt_sample3x3 : FitsInt sample3x3.width sample3x3.height := by
  unfold FitsInt; decide

theorem fitsInt_sample5x5 : FitsInt sample5x5.width sample5x5.height := by
  unfold FitsInt; decide

theorem isSchedule_sampleChunks : IsSchedule sample5x5.width sample5x5.height sampleChunks := by
  unfold IsSchedule; decide

/-- Instance of C2 on the 5x5 sample under a four-range work split. -/
theorem processOpenMP_matches_processSequential_witness :
    (∃ out', processSequential sample5x5 freshImage KERNEL_BLUR 16 = some out'
        ∧ processOpenMP sampleChunks sample5x5 freshImage KERNEL_BLUR 16 = some out')
      ∧ (∃ out', processSequential sample5x5 freshImage KERNEL_SHARPEN 1 = some out'
        ∧ processOpenMP sampleChunks sample5x5 freshImage KERNEL_SHARPEN 1 = some out') :=
  processOpenMP_matches_processSequential sample5x5 freshImage sampleChunks fitsInt_sample5x5
    (by decide) isSchedule_sampleChunks

/-- Instance of C3 on the 5x5 sample with SHARPEN and divisor 1. -/
theorem border_pixels_zero_witness :
    (∀ out', (processSequential sample5x5 freshImage KERNEL_SHARPEN 1 = some out'
          ∨ processOpenMP sampleChunks sample5x5 freshImage KERNEL_SHARPEN 1 = some out') →
        ∀ x y, IsBorder sample5x5.width sample5x5.height x y →
          out'.pixels[(y * sample5x5.width + x).toNat]? = some 0)
      ∧ ((sample5x5.pixels.length : Int) = sample5x5.width * sample5x5.height →
          DivisionDefined sample5x5 KERNEL_SHARPEN 1 →
          ∃ out', processSequential sample5x5 freshImage KERNEL_SHARPEN 1 = some out'
            ∧ processOpenMP sampleChunks sample5x5 freshImage KERNEL_SHARPEN 1 = some out') :=
  border_pixels_zero sample5x5 freshImage KERNEL_SHARPEN 1 sampleChunks fitsInt_sample5x5 rfl
    isSchedule_sampleChunks

/-- Instance of C5 on the 5x5 sample, the output being the 3x3 sample. -/
theorem shape_invariant_witness :
    (∀ out', (processSequential sample5x5 sample3x3 KERNEL_BLUR 16 = some out'
          ∨ processOpenMP sampleChunks sample5x5 sample3x3 KERNEL_BLUR 16 = some out') →
        out'.width = sample5x5.width ∧ out'.height = sample5x5.height ∧ out'.channels = 1
          ∧ (out'.pixels.length : Int) = sample5x5.width * sample5x5.height
          ∧ (out'.pixels.length : Int) = out'.width * out'.height)
      ∧ ((sample5x5.pixels.length : Int) = sample5x5.width * sample5x5.height →
          DivisionDefined sample5x5 KERNEL_BLUR 16 →
          ∃ out', processSequential sample5x5 sample3x3 KERNEL_BLUR 16 = some out') :=
  shape_invariant sample5x5 sample3x3 KERNEL_BLUR 16 sampleChunks fitsInt_sample5x5

/-- Instance of C6: a 2x2 header over an empty buffer, divisor 0. -/
theorem small_image_all_zero_witness :
    interior sample2x2.width sample2x2.height = []
      ∧ processSequential sample2x2 freshImage KERNEL_SHARPEN 0
        = some { width := sample2x2.width, height := sample2x2.height, channels := 1,
                 pixels := List.replicate (sample2x2.width * sample2x2.height).toNat 0 } :=
  small_image_all_zero sample2x2 freshImage KERNEL_SHARPEN 0 (by unfold FitsInt; decide)
    (by decide) rfl

/-- Instance of C7 on the 3x3 sample. -/
theorem repeated_call_unchanged_witness :
    (∀ out1, processSequential sample3x3 freshImage KERNEL_SHARPEN 1 = some out1 →
        processSequential sample3x3 out1 KERNEL_SHARPEN 1 = some out1)
      ∧ ((sample3x3.pixels.length : Int) = sample3x3.width * sample3x3.height →
          DivisionDefined sample3x3 KERNEL_SHARPEN 1 →
          ∃ out1, processSequential sample3x3 freshImage KERNEL_SHARPEN 1 = some out1) :=
  repeated_call_unchanged sample3x3 freshImage KERNEL_SHARPEN 1 fitsInt_sample3x3

/-- Instance of C8 on the 5x5 sample. -/
theorem pipeline_composition_witness :
    ∃ final, (applyKernel sample5x5 KERNEL_BLUR 16).bind
        (fun blurred => applyKernel blurred KERNEL_SHARPEN 1) = some final
      ∧ benchmarkFile sampleChunks sampleChunks sample5x5 freshImage freshImage
        = some (final, final) :=
  pipeline_composition sample5x5 freshImage freshImage sampleChunks sampleChunks
    fitsInt_sample5x5 (by decide) rfl rfl isSchedule_sampleChunks isSchedule_sampleChunks

/-- Instance of C9 with the default-constructed output. -/
theorem blur_5x5_all_100_witness :
    processSequential
        { width := 5, height := 5, channels := 1, pixels := List.replicate 25 100 }
        freshImage KERNEL_BLUR 16
      = some { width := 5, height := 5, channels := 1,
               pixels := [0,   0,   0,   0, 0,
                          0, 100, 100, 100, 0,
                          0, 100, 100, 100, 0,
                          0, 100, 100, 100, 0,
                          0,   0,   0,   0, 0] } :=
  blur_5x5_all_100 1 freshImage rfl

/-! ## Index safety and the border frame -/

theorem getElem?_resized (buf : List Pixel) {n i : Nat} (hi : i < n) :
    (resized buf n)[i]? = if i < buf.length then buf[i]? else some 0 := by
  unfold resized
  by_cases h : i < buf.length
  · rw [if_pos h, List.getElem?_append_left (by rw [List.length_take]; omega),
      List.getElem?_take_of_lt hi]
  · rw [if_neg h, List.getElem?_append_right (by rw [List.length_take]; omega),
      List.getElem?_replicate, if_pos (by rw [List.length_take]; omega)]

theorem processSequential_unfold (input output : Image) (kernel : Kernel) (divisor : Int) :
    processSequential input output kernel divisor
      = (resizePixels output.pixels (imul input.width input.height)).bind fun buf =>
          ((interior input.width input.height).foldlM
            (writeStep (fun c => pixelIndex input.width c.1 c.2)
              (pixelValue input kernel divisor input.width)) buf).map
          fun b => { width := input.width, height := input.height, channels := 1,
                     pixels := b } := by
  unfold processSequential
  dsimp only
  rw [convolvePixel_eq]
  cases resizePixels output.pixels (imul input.width input.height) with
  | none => rfl
  | some buf =>
    simp only [Option.bind_eq_bind, Option.some_bind, Option.pure_def]
    cases (interior input.width input.height).foldlM
      (writeStep (fun c => pixelIndex input.width c.1 c.2)
        (pixelValue input kernel divisor input.width)) buf <;> rfl

theorem bigImage_fails : processSequential bigImage freshImage KERNEL_BLUR 16 = none := by
  rw [processSequential_unfold]
  have hr : resizePixels freshImage.pixels (imul bigImage.width bigImage.height) = some [] := by
    decide
  rw [hr, Option.some_bind]
  cases h : (interior bigImage.width bigImage.height).foldlM
      (writeStep (fun c => pixelIndex bigImage.width c.1 c.2)
        (pixelValue bigImage KERNEL_BLUR 16 bigImage.width)) [] with
  | none => rfl
  | some b =>
    exfalso
    have hin : ((1 : Int), (1 : Int)) ∈ interior bigImage.width bigImage.height := by
      unfold interior
      simp only [List.mem_flatMap, List.mem_map, mem_loopRange]
      exact ⟨1, by decide, 1, by decide, rfl⟩
    have := (foldlM_defined _ _ _ _ _ h _ hin).2.2
    revert this
    decide

theorem mem_kernelOffsets {k : Int} (h : k ∈ kernelOffsets) : -1 ≤ k ∧ k ≤ 1 := by
  unfold kernelOffsets at h
  simp only [List.mem_cons, List.mem_singleton, List.not_mem_nil, or_false] at h
  omega

/-- C13, as amended: when W, H and W*H are non-negative values of type `int`
and the input buffer has length exactly W*H, every index read by the window
loops and every index written by `processSequential` lies in [0, W*H), each
such access succeeds, and the call can only fail through its division. -/
theorem index_safety (input : Image) (hf : FitsInt input.width input.height)
    (hlen : (input.pixels.length : Int) = input.width * input.height) :
    (∀ c ∈ interior input.width input.height, ∀ ky ∈ kernelOffsets, ∀ kx ∈ kernelOffsets,
        0 ≤ pixelIndex input.width (iadd c.1 kx) (iadd c.2 ky)
          ∧ pixelIndex input.width (iadd c.1 kx) (iadd c.2 ky) < input.width * input.height
          ∧ (readPixel input.pixels
              (pixelIndex input.width (iadd c.1 kx) (iadd c.2 ky))).isSome)
      ∧ (∀ c ∈ interior input.width input.height,
          0 ≤ pixelIndex input.width c.1 c.2
            ∧ pixelIndex input.width c.1 c.2 < input.width * input.height
            ∧ ∀ (buf : List Pixel) (v : Pixel),
                (buf.length : Int) = input.width * input.height →
                (writePixel buf (pixelIndex input.width c.1 c.2) v).isSome)
      ∧ (∀ (output : Image) (kernel : Kernel) (divisor : Int),
          processSequential input output kernel divisor = none →
          ¬ DivisionDefined input kernel divisor) := by
  refine ⟨fun c hc ky hky kx hkx => ?_, fun c hc => ?_, fun output kernel divisor hn hdiv => ?_⟩
  · have hint := (mem_interior hf).mp hc
    obtain ⟨k1, k2⟩ := mem_kernelOffsets hky
    obtain ⟨k3, k4⟩ := mem_kernelOffsets hkx
    have hr := readPixel_window hf hlen hint k1 k2 k3 k4
    obtain ⟨h1, h2, h3, h4⟩ := hint
    obtain ⟨-, hw1, -, hh1, -⟩ := id hf
    rw [hr]
    rw [iadd_small (by omega) (by omega) k3 k4, iadd_small (by omega) (by omega) k1 k2,
      pixelIndex_eq hf (by omega) (by omega) (by omega) (by omega)]
    obtain ⟨b0, b1⟩ := index_bounds (w := input.width) (h := input.height) (x := c.1 + kx)
      (y := c.2 + ky) (by omega) (by omega) (by omega) (by omega)
    exact ⟨b0, b1, rfl⟩
  · have hint := (mem_interior hf).mp hc
    obtain ⟨e, b0, b1⟩ := interior_index hf hint
    rw [e]
    refine ⟨b0, b1, fun buf v hb => ?_⟩
    unfold writePixel
    rw [if_neg (by omega), if_pos (by omega)]
    rfl
  · obtain ⟨out', ho⟩ := processSequential_returns hf hlen hdiv output
    rw [hn] at ho
    exact Option.noConfusion ho

/-- C13, as stated, fails: the 65536 x 65536 image has W, H ≥ 0 and a buffer of
length exactly W*H, yet the window of the interior pixel (1, 32767) reads at a
negative `int` index, and the call (which resizes the output to the wrapped
product `w * h = 0` and then stores at index 65537) does not return. -/
theorem index_safety_counterexample :
    0 ≤ bigImage.width ∧ 0 ≤ bigImage.height
      ∧ (bigImage.pixels.length : Int) = bigImage.width * bigImage.height
      ∧ ((1 : Int), (32767 : Int)) ∈ interior bigImage.width bigImage.height
      ∧ pixelIndex bigImage.width (iadd 1 0) (iadd 32767 1) = -2147483647
      ∧ readPixel bigImage.pixels (pixelIndex bigImage.width (iadd 1 0) (iadd 32767 1)) = none
      ∧ processSequential bigImage freshImage KERNEL_BLUR 16 = none := by
  refine ⟨by decide, by decide, ?_, ?_, by decide, ?_, bigImage_fails⟩
  · unfold bigImage
    simp only [List.length_replicate]
    norm_num
  · unfold interior
    simp only [List.mem_flatMap, List.mem_map, mem_loopRange]
    exact ⟨32767, by decide, 1, by decide, rfl⟩
  · have e : pixelIndex bigImage.width (iadd 1 0) (iadd 32767 1) = -2147483647 := by decide
    rw [e]
    rfl

/-- C14: no iteration of either pass stores to a border position; whatever a
pass returns holds, at every border pixel, the element the output vector had
there before the call when it had one, and the 0 appended by `resize`
otherwise; in particular a prior buffer of length W*H keeps all its border
pixels. The sequential pass returns when the input buffer has length W*H and
the division is defined. -/
theorem border_frame (input output : Image) (kernel : Kernel) (divisor : Int)
    (chunks : List (List (Int × Int))) (hf : FitsInt input.width input.height)
    (hs : IsSchedule input.width input.height chunks) :
    (∀ c ∈ interior input.width input.height, ∀ x y,
        IsBorder input.width input.height x y →
        pixelIndex input.width c.1 c.2 ≠ y * input.width + x)
      ∧ (∀ out', (processSequential input output kernel divisor = some out'
            ∨ processOpenMP chunks input output kernel divisor = some out') →
          ∀ x y, IsBorder input.width input.height x y →
            (((y * input.width + x).toNat < output.pixels.length →
                out'.pixels[(y * input.width + x).toNat]?
                  = output.pixels[(y * input.width + x).toNat]?)
              ∧ (output.pixels.length ≤ (y * input.width + x).toNat →
                out'.pixels[(y * input.width + x).toNat]? = some 0)
              ∧ ((output.pixels.length : Int) = input.width * input.height →
                out'.pixels[(y * input.width + x).toNat]?
                  = output.pixels[(y * input.width + x).toNat]?)))
      ∧ ((input.pixels.length : Int) = input.width * input.height →
          DivisionDefined input kernel divisor →
          ∃ out', processSequential input output kernel divisor = some out') := by
  refine ⟨fun c hc x y hb => ?_, fun out' ho x y hb => ?_, fun hlen hdiv =>
    processSequential_returns hf hlen hdiv output⟩
  · have hint := (mem_interior hf).mp hc
    rw [(interior_index hf hint).1]
    exact border_not_interior hb _ _ hint
  · rw [processOpenMP_eq_processSequential hf hs, or_self] at ho
    obtain ⟨-, -, -, -, -, hfr⟩ := processSequential_post hf ho
    obtain ⟨b1, b2, b3, b4, -⟩ := id hb
    obtain ⟨i0, i1⟩ := index_bounds b1 b2 b3 b4
    have hlt : (y * input.width + x).toNat < (input.width * input.height).toNat := by
      apply Int.ofNat_lt.mp
      rw [Int.toNat_of_nonneg i0, Int.toNat_of_nonneg (by omega)]; exact i1
    have key := hfr (y * input.width + x).toNat (fun x' y' hint => by
      rw [Int.toNat_of_nonneg i0]; exact border_not_interior hb x' y' hint)
    rw [getElem?_resized _ hlt] at key
    refine ⟨fun h => by rw [key, if_pos h], fun h => by rw [key, if_neg (by omega)],
      fun h => ?_⟩
    rw [key, if_pos]
    apply Int.ofNat_lt.mp
    rw [Int.toNat_of_nonneg i0, h]; exact i1

/-! ## Rounding of the quotient -/

theorem tdiv_eq_fdiv_or_nonpos (s d : Int) :
    Int.tdiv s d = Int.fdiv s d ∨ (Int.tdiv s d ≤ 0 ∧ Int.fdiv s d ≤ 0) := by
  rcases Int.lt_or_le s 0 with hs | hs
  · rcases Int.lt_trichotomy d 0 with hd | hd | hd
    · left
      obtain ⟨m, rfl⟩ := Int.eq_negSucc_of_lt_zero hs
      obtain ⟨n, rfl⟩ := Int.eq_negSucc_of_lt_zero hd
      rfl
    · left; rw [hd, Int.tdiv_zero, Int.fdiv_zero]
    · right
      exact ⟨tdiv_nonpos_of_neg hd hs, Int.le_of_lt (Int.fdiv_neg' hs hd)⟩
  · rcases Int.lt_or_le d 0 with hd | hd
    · right
      exact ⟨Int.tdiv_nonpos hs (Int.le_of_lt hd), Int.fdiv_nonpos hs (Int.le_of_lt hd)⟩
    · left; exact (Int.fdiv_eq_tdiv hs hd).symm

theorem clampStore_tdiv_eq_fdiv (s d : Int) :
    clampStore (Int.tdiv s d) = clampStore (Int.fdiv s d) := by
  rcases tdiv_eq_fdiv_or_nonpos s d with h | ⟨h1, h2⟩
  · rw [h]
  · rw [clampStore_low h1, clampStore_low h2]

theorem pixelValueFloor_eq (input : Image) (kernel : Kernel) (divisor w : Int)
    (c : Int × Int) :
    pixelValueFloor input kernel divisor w c = pixelValue input kernel divisor w c := by
  unfold pixelValueFloor pixelValue idivFloor idiv
  cases kernelSum input kernel w c.1 c.2 with
  | none => rfl
  | some s =>
    simp only [Option.bind_eq_bind, Option.some_bind, Option.pure_def]
    split_ifs
    · rfl
    · rfl
    · simp only [Option.some_bind, clampStore_tdiv_eq_fdiv]

theorem processSequentialFloor_eq (input output : Image) (kernel : Kernel) (divisor : Int) :
    processSequentialFloor input output kernel divisor
      = processSequential input output kernel divisor := by
  unfold processSequentialFloor processSequential convolvePixel
  simp only [pixelValueFloor_eq]

/-- C15: for any kernel and divisor, the truncated and the floor quotient of
the accumulated sum differ only when both are at most 0, they are stored as the
same pixel after clamping, and so the pass computed with floor division is the
pass of the code: same failure or same returned image, every interior pixel
included; the pass does return on a buffer of length W*H when the division is
defined. -/
theorem rounding_mode_independent (input output : Image) (kernel : Kernel) (divisor : Int)
    (hf : FitsInt input.width input.height) :
    (∀ s : Int, Int.tdiv s divisor ≠ Int.fdiv s divisor →
        Int.tdiv s divisor ≤ 0 ∧ Int.fdiv s divisor ≤ 0)
      ∧ (∀ s : Int, clampStore (Int.tdiv s divisor) = clampStore (Int.fdiv s divisor))
      ∧ processSequentialFloor input output kernel divisor
          = processSequential input output kernel divisor
      ∧ (∀ out', processSequential input output kernel divisor = some out' →
          ∀ x y, IsInterior input.width input.height x y →
            out'.pixels[(y * input.width + x).toNat]?
              = pixelValueFloor input kernel divisor input.width (x, y))
      ∧ ((input.pixels.length : Int) = input.width * input.height →
          DivisionDefined input kernel divisor →
          ∃ out', processSequential input output kernel divisor = some out') := by
  refine ⟨fun s hne => ?_, fun s => clampStore_tdiv_eq_fdiv s divisor,
    processSequentialFloor_eq input output kernel divisor, fun out' ho x y hint => ?_,
    fun hlen hdiv => processSequential_returns hf hlen hdiv output⟩
  · rcases tdiv_eq_fdiv_or_nonpos s divisor with h | h
    · exact absurd h hne
    · exact h
  · obtain ⟨-, -, -, -, hv, -⟩ := processSequential_post hf ho
    rw [hv x y hint, pixelValueFloor_eq]

/-! ## Blur as a weighted average -/

theorem extensionRejected_iff (ext : String) :
    extensionRejected ext = true ↔ ¬ (ext = ".jpg" ∨ ext = ".png" ∨ ext = ".jpeg") := by
  unfold extensionRejected
  simp only [Bool.and_eq_true, bne_iff_ne, ne_eq, not_or, and_assoc]

/-- The per-file body returns on a well-formed decoded image. -/
theorem benchmarkFile_returns {imgIn : Image} {ch1 ch2 : List (List (Int × Int))}
    (hf : FitsInt imgIn.width imgIn.height)
    (hlen : (imgIn.pixels.length : Int) = imgIn.width * imgIn.height)
    (hs1 : IsSchedule imgIn.width imgIn.height ch1)
    (hs2 : IsSchedule imgIn.width imgIn.height ch2) :
    ∃ images, benchmarkFile ch1 ch2 imgIn freshImage freshImage = some images := by
  have hdiv1 : DivisionDefined imgIn KERNEL_BLUR 16 :=
    divisionDefined_of_ne (by decide) (by decide)
  obtain ⟨blur, hblur⟩ := processSequential_returns hf hlen hdiv1 freshImage
  obtain ⟨e1, e2, -, e4, -, -⟩ := processSequential_post hf hblur
  have hf2 : FitsInt blur.width blur.height := by rw [e1, e2]; exact hf
  have hlen2 : (blur.pixels.length : Int) = blur.width * blur.height := by
    rw [e4, toNat_area hf, e1, e2]
  have hdiv2 : DivisionDefined blur KERNEL_SHARPEN 1 :=
    divisionDefined_of_ne (by decide) (by decide)
  obtain ⟨final, hfinal⟩ := processSequential_returns hf2 hlen2 hdiv2 freshImage
  have hs2' : IsSchedule blur.width blur.height ch2 := by rw [e1, e2]; exact hs2
  refine ⟨(final, final), ?_⟩
  unfold benchmarkFile
  rw [hblur]
  simp only [Option.bind_eq_bind, Option.some_bind, Option.pure_def]
  rw [hfinal, Option.some_bind, processOpenMP_eq_processSequential hf hs1,
    processSequential_again hf hblur, Option.some_bind,
    processOpenMP_eq_processSequential hf2 hs2', processSequential_again hf2 hfinal,
    Option.some_bind]

theorem loadImage_wellFormed {env : Environment} {entry : DirEntry}
    (hd : DecodesWell env entry)
    (hw : (loadImage env.stbi_load (inputFolder ++ "/" ++ entry.filename)).width ≠ 0) :
    FitsInt (loadImage env.stbi_load (inputFolder ++ "/" ++ entry.filename)).width
        (loadImage env.stbi_load (inputFolder ++ "/" ++ entry.filename)).height
      ∧ ((loadImage env.stbi_load (inputFolder ++ "/" ++ entry.filename)).pixels.length : Int)
        = (loadImage env.stbi_load (inputFolder ++ "/" ++ entry.filename)).width
          * (loadImage env.stbi_load (inputFolder ++ "/" ++ entry.filename)).height := by
  unfold loadImage at hw ⊢
  cases hl : env.stbi_load (inputFolder ++ "/" ++ entry.filename) with
  | none => rw [hl] at hw; exact absurd rfl hw
  | some r =>
    obtain ⟨w, h, c, data⟩ := r
    obtain ⟨hf, hlen⟩ := hd.1 w h c data hl
    refine ⟨hf, ?_⟩
    have e : imul w h = w * h :=
      wrap32_of_fits (by unfold INT_MIN; have := mul_nonneg hf.1 hf.2.2.1; omega) hf.2.2.2.2
    simp only [e, List.length_take]
    have := toNat_area hf
    omega

/-- C11, as amended: when `data` does not exist, `main` reports the input
directory as not found, returns 1 and leaves the set of existing paths as it
was (no output directory is created); when `data` exists and is empty, `main`
reports nothing, makes sure both output directories exist, prints no row and
returns 0. -/
theorem input_directory_check (env : Environment) (fs : FileSystem) :
    (inputFolder ∉ fs.existing →
        ∃ r, main env fs = some r ∧ r.exitStatus = 1
          ∧ r.diagnostics = [Diagnostic.inputDirectoryNotFound]
          ∧ r.existing = fs.existing ∧ r.state.rows = [] ∧ r.state.saved = [])
      ∧ (inputFolder ∈ fs.existing → fs.dataEntries = some [] →
        ∃ r, main env fs = some r ∧ r.exitStatus = 0 ∧ r.diagnostics = []
          ∧ outSeqFolder ∈ r.existing ∧ outOmpFolder ∈ r.existing
          ∧ r.state.fileCount = 0 ∧ r.state.rows = []) := by
  constructor
  · intro h
    refine ⟨_, by unfold main; rw [if_pos h], rfl, rfl, rfl, rfl, rfl⟩
  · intro h he
    refine ⟨_, by unfold main; rw [if_neg (not_not.mpr h), he]; rfl, rfl, rfl, ?_, ?_, rfl, rfl⟩
    · show outSeqFolder ∈ ensureDirectory (ensureDirectory fs.existing outSeqFolder) outOmpFolder
      unfold ensureDirectory
      split_ifs <;> simp_all
    · show outOmpFolder ∈ ensureDirectory (ensureDirectory fs.existing outSeqFolder) outOmpFolder
      unfold ensureDirectory
      split_ifs <;> simp_all

/-- C11, as stated, fails for an empty input directory: with `data` existing
and empty and no output directory present, `main` returns 0, reports nothing
and creates both output directories. -/
theorem empty_input_directory_counterexample :
    inputFolder ∈ emptyDataFs.existing ∧ emptyDataFs.dataEntries = some []
      ∧ outSeqFolder ∉ emptyDataFs.existing ∧ outOmpFolder ∉ emptyDataFs.existing
      ∧ ∃ r, main sampleEnvironment emptyDataFs = some r ∧ r.exitStatus = 0
          ∧ r.diagnostics = [] ∧ outSeqFolder ∈ r.existing ∧ outOmpFolder ∈ r.existing := by
  refine ⟨by decide, rfl, by decide, by decide, _, rfl, rfl, rfl, by decide, by decide⟩

/-- C12: an iteration that passes an entry over (extension other than exactly
`.jpg`, `.png`, `.jpeg`, so `.JPG` too, or a decoded width of 0) leaves the
loop state untouched; an iteration on a selected entry, when it returns, has
incremented `fileCount`, appended one report row and added the two durations
to the totals; so an entry is counted if and only if it is selected. The
iteration on a selected entry returns when the decoder honours its contract. -/
theorem file_selection (env : Environment) (st : DriverState) (entry : DirEntry) :
    (¬ Selected env entry → processEntry env st entry = some st)
      ∧ (entry.extension = ".JPG" → processEntry env st entry = some st)
      ∧ (∀ st', processEntry env st entry = some st' →
          ((st'.fileCount = st.fileCount + 1 ∧ st'.rows.length = st.rows.length + 1)
              ↔ Selected env entry)
            ∧ (Selected env entry →
                st'.rows = st.rows ++ [(entry.filename,
                    reportRow (env.elapsed entry.filename).1 (env.elapsed entry.filename).2)]
                  ∧ st'.totalTimeSeq = st.totalTimeSeq + (env.elapsed entry.filename).1
                  ∧ st'.totalTimeOmp = st.totalTimeOmp + (env.elapsed entry.filename).2))
      ∧ (Selected env entry → DecodesWell env entry →
          ∃ st', processEntry env st entry = some st') := by
  have skip : ¬ Selected env entry → processEntry env st entry = some st := by
    intro hns
    unfold processEntry
    by_cases hr : extensionRejected entry.extension = true
    · rw [if_pos hr]
    · rw [if_neg hr]
      have hext := not_not.mp (fun h => hr ((extensionRejected_iff _).mpr h))
      have hw : (loadImage env.stbi_load (inputFolder ++ "/" ++ entry.filename)).width = 0 :=
        not_not.mp (fun h => hns ⟨hext, h⟩)
      simp only [hw, if_true]
  have run : Selected env entry → ∀ st', processEntry env st entry = some st' →
      st'.fileCount = st.fileCount + 1
        ∧ st'.rows = st.rows ++ [(entry.filename,
            reportRow (env.elapsed entry.filename).1 (env.elapsed entry.filename).2)]
        ∧ st'.totalTimeSeq = st.totalTimeSeq + (env.elapsed entry.filename).1
        ∧ st'.totalTimeOmp = st.totalTimeOmp + (env.elapsed entry.filename).2 := by
    intro hsel st' hst
    unfold processEntry at hst
    rw [if_neg (fun h => (extensionRejected_iff _).mp h hsel.1)] at hst
    simp only [if_neg hsel.2] at hst
    cases hb : benchmarkFile
        (env.split (loadImage env.stbi_load (inputFolder ++ "/" ++ entry.filename)).width
          (loadImage env.stbi_load (inputFolder ++ "/" ++ entry.filename)).height)
        (env.split (loadImage env.stbi_load (inputFolder ++ "/" ++ entry.filename)).width
          (loadImage env.stbi_load (inputFolder ++ "/" ++ entry.filename)).height)
        (loadImage env.stbi_load (inputFolder ++ "/" ++ entry.filename)) freshImage freshImage with
    | none => rw [hb] at hst; simp at hst
    | some images =>
      rw [hb] at hst
      simp only [Option.bind_eq_bind, Option.some_bind, Option.pure_def, Option.some.injEq]
        at hst
      subst hst
      exact ⟨rfl, rfl, rfl, rfl⟩
  refine ⟨skip, fun hJ => skip (fun hsel => ?_), fun st' hst => ⟨⟨fun hc => ?_, fun hsel => ?_⟩,
    fun hsel => (run hsel st' hst).2⟩, fun hsel hd => ?_⟩
  · have hext := hsel.1
    rw [hJ] at hext
    revert hext
    decide
  · by_contra hns
    rw [skip hns] at hst
    have := Option.some.inj hst
    subst this
    omega
  · obtain ⟨h1, h2, -, -⟩ := run hsel st' hst
    exact ⟨h1, by rw [h2, List.length_append]; rfl⟩
  · obtain ⟨hf, hlen⟩ := loadImage_wellFormed hd hsel.2
    obtain ⟨images, hb⟩ := benchmarkFile_returns hf hlen (hd.2 _ _) (hd.2 _ _)
    unfold processEntry
    rw [if_neg (fun h => (extensionRejected_iff _).mp h hsel.1)]
    simp only [if_neg hsel.2, hb, Option.bind_eq_bind, Option.some_bind, Option.pure_def]
    exact ⟨_, rfl⟩

/-! ## Further instances on the sample inputs -/

theorem selected_samplePng : Selected decodingEnvironment samplePng :=
  ⟨Or.inr (Or.inl rfl), by decide⟩

theorem decodesWell_samplePng : DecodesWell decodingEnvironment samplePng := by
  refine ⟨fun w h c data he => ?_, fun w h => ?_⟩
  · have e := Option.some.inj he
    simp only [Prod.mk.injEq] at e
    obtain ⟨rfl, rfl, rfl, rfl⟩ := e
    exact ⟨fitsInt_sample3x3, by decide⟩
  · unfold IsSchedule
    show List.Perm ([interior w h].flatten) (interior w h)
    simp

/-- Instance of C11 (amended) on a filesystem without `data`. -/
theorem input_directory_check_witness :
    ∃ r, main sampleEnvironment noDataFs = some r ∧ r.exitStatus = 1
      ∧ r.diagnostics = [Diagnostic.inputDirectoryNotFound]
      ∧ r.existing = noDataFs.existing ∧ r.state.rows = [] ∧ r.state.saved = [] :=
  (input_directory_check sampleEnvironment noDataFs).1 (by decide)

/-- Instance of C12: the entry `a.png`, decoded to the 3x3 sample, is
processed. -/
theorem file_selection_witness :
    ∃ st', processEntry decodingEnvironment initialState samplePng = some st' :=
  (file_selection decodingEnvironment initialState samplePng).2.2.2 selected_samplePng
    decodesWell_samplePng

/-- Instance of C13 (amended) on the 5x5 sample. -/
theorem index_safety_witness :
    (∀ c ∈ interior sample5x5.width sample5x5.height, ∀ ky ∈ kernelOffsets,
        ∀ kx ∈ kernelOffsets,
        0 ≤ pixelIndex sample5x5.width (iadd c.1 kx) (iadd c.2 ky)
          ∧ pixelIndex sample5x5.width (iadd c.1 kx) (iadd c.2 ky)
            < sample5x5.width * sample5x5.height
          ∧ (readPixel sample5x5.pixels
              (pixelIndex sample5x5.width (iadd c.1 kx) (iadd c.2 ky))).isSome)
      ∧ (∀ c ∈ interior sample5x5.width sample5x5.height,
          0 ≤ pixelIndex sample5x5.width c.1 c.2
            ∧ pixelIndex sample5x5.width c.1 c.2 < sample5x5.width * sample5x5.height
            ∧ ∀ (buf : List Pixel) (v : Pixel),
                (buf.length : Int) = sample5x5.width * sample5x5.height →
                (writePixel buf (pixelIndex sample5x5.width c.1 c.2) v).isSome)
      ∧ (∀ (output : Image) (kernel : Kernel) (divisor : Int),
          processSequential sample5x5 output kernel divisor = none →
          ¬ DivisionDefined sample5x5 kernel divisor) :=
  index_safety sample5x5 fitsInt_sample5x5 (by decide)

/-- Instance of C14: the 5x5 sample convolved into a used 5x5 buffer. -/
theorem border_frame_witness :
    (∀ c ∈ interior sample5x5.width sample5x5.height, ∀ x y,
        IsBorder sample5x5.width sample5x5.height x y →
        pixelIndex sample5x5.width c.1 c.2 ≠ y * sample5x5.width + x)
      ∧ (∀ out', (processSequential sample5x5 samplePrior KERNEL_BLUR 16 = some out'
            ∨ processOpenMP sampleChunks sample5x5 samplePrior KERNEL_BLUR 16 = some out') →
          ∀ x y, IsBorder sample5x5.width sample5x5.height x y →
            (((y * sample5x5.width + x).toNat < samplePrior.pixels.length →
                out'.pixels[(y * sample5x5.width + x).toNat]?
                  = samplePrior.pixels[(y * sample5x5.width + x).toNat]?)
              ∧ (samplePrior.pixels.length ≤ (y * sample5x5.width + x).toNat →
                out'.pixels[(y * sample5x5.width + x).toNat]? = some 0)
              ∧ ((samplePrior.pixels.length : Int) = sample5x5.width * sample5x5.height →
                out'.pixels[(y * sample5x5.width + x).toNat]?
                  = samplePrior.pixels[(y * sample5x5.width + x).toNat]?)))
      ∧ ((sample5x5.pixels.length : Int) = sample5x5.width * sample5x5.height →
          DivisionDefined sample5x5 KERNEL_BLUR 16 →
          ∃ out', processSequential sample5x5 samplePrior KERNEL_BLUR 16 = some out') :=
  border_frame sample5x5 samplePrior KERNEL_BLUR 16 sampleChunks fitsInt_sample5x5
    isSchedule_sampleChunks

/-- Instance of C15 on the 5x5 sample with SHARPEN and divisor 1. -/
theorem rounding_mode_independent_witness :
    (∀ s : Int, Int.tdiv s 1 ≠ Int.fdiv s 1 → Int.tdiv s 1 ≤ 0 ∧ Int.fdiv s 1 ≤ 0)
      ∧ (∀ s : Int, clampStore (Int.tdiv s 1) = clampStore (Int.fdiv s 1))
      ∧ processSequentialFloor sample5x5 freshImage KERNEL_SHARPEN 1
          = processSequential sample5x5 freshImage KERNEL_SHARPEN 1
      ∧ (∀ out', processSequential sample5x5 freshImage KERNEL_SHARPEN 1 = some out' →
          ∀ x y, IsInterior sample5x5.width sample5x5.height x y →
            out'.pixels[(y * sample5x5.width + x).toNat]?
              = pixelValueFloor sample5x5 KERNEL_SHARPEN 1 sample5x5.width (x, y))
      ∧ ((sample5x5.pixels.length : Int) = sample5x5.width * sample5x5.height →
          DivisionDefined sample5x5 KERNEL_SHARPEN 1 →
          ∃ out', processSequential sample5x5 freshImage KERNEL_SHARPEN 1 = some out') :=
  rounding_mode_independent sample5x5 freshImage KERNEL_SHARPEN 1 fitsInt_sample5x5

end Convolution
